import Mathlib

/-!
# Verification of the relative clock core (noodlebox/clock)

A shallow embedding of the `relativetime` package (and the parts of
`steppedtime` it is instantiated with), translated from the Go source:

* local time `T` and durations `D` are integer nanosecond counts (`Int`),
  exactly the `steppedtime.Time`/`time.Duration` instantiation that the
  spec's end-to-end scenarios mandate;
* the float64 seconds arithmetic of the coordinate transform is modelled
  with exact rationals (`ℚ`); `steppedtime.Seconds` (which converts a
  float64 second count to integer nanoseconds, truncating toward zero)
  becomes `secondsToDur`;
* a Go timer record (`relativetime/schedule.go`, type `timer`) is a
  heap-allocated record addressed by a pointer; the embedding gives each
  record a numeric id and keeps the records in a map `store : Nat → TimerRec`,
  the heap array being an array of ids (`arr`, `size`).  `nids` counts the
  allocated ids (allocation bookkeeping, not a field of the Go struct);
* the callback `f` of a timer record is modelled by its observable effects:
  a capacity-1 mailbox per id (`chans`, the timer/ticker channel with the
  non-blocking drop-if-full send) plus an append-only log `fired` of
  (id, local-time) invocations;
* loops are translated with an explicit fuel argument; every theorem about
  a loop is proved for sufficient fuel and the public wrappers supply it.
-/

/-- `time.Duration.Seconds` for an integer nanosecond duration, as an exact
rational (models the float64 value `float64(d) / 1e9`). -/
def durSeconds (d : Int) : ℚ := (d : ℚ) / 1000000000

/-- Truncation of a rational toward zero, the rounding Go applies when
converting a float64 to an integer type. -/
def ratTrunc (q : ℚ) : Int := q.num.tdiv q.den

/-- `steppedtime.Clock.Seconds` (src/steppedtime/time.go:38-40):
`Duration(n * float64(Second))`, i.e. `n` seconds as integer nanoseconds,
truncated toward zero.  This is the `seconds_to_duration` of the reference
clock used throughout. -/
def secondsToDur (q : ℚ) : Int := ratTrunc (q * 1000000000)

theorem durSeconds_le_zero (d : Int) : durSeconds d ≤ 0 ↔ d ≤ 0 := by
  rw [durSeconds, div_le_iff₀ (by norm_num : (0 : ℚ) < 1000000000)]
  simp

/-- Decide `d.Seconds() ≤ 0` by the equivalent integer test, so that the
guards written exactly as in the source still evaluate on concrete
states. -/
instance (d : Int) : Decidable (durSeconds d ≤ 0) :=
  decidable_of_iff (d ≤ 0) (durSeconds_le_zero d).symm

/-- One event record (src/relativetime/schedule.go:3-8, type `timer`).
`when` is the next local firing time, `period = 0` means one-shot,
`index` is the heap position or `-1` when detached.  The callback `f` is
modelled separately (see `ClockState.chans` / `ClockState.fired`). -/
structure TimerRec where
  when : Int
  period : Int
  index : Int
deriving DecidableEq, Repr

/-- The scheduler's queue together with the record store it indexes into.
`arr j` for `j < size` is the id at heap position `j`
(src/relativetime/schedule.go:10, `type queue []*timer`); `store` holds the
records themselves; `nids` is the number of allocated ids. -/
structure Sched where
  store : Nat → TimerRec
  arr : Nat → Nat
  size : Nat
  nids : Nat

namespace Sched

/-- `when` of the record of id `t`. -/
def wh (s : Sched) (t : Nat) : Int := (s.store t).when

/-- Write heap position `i` (the Go assignment `q[i] = x`). -/
def setArr (s : Sched) (i : Nat) (t : Nat) : Sched :=
  { s with arr := Function.update s.arr i t }

/-- Write the index field of record `t` (the Go assignment `x.index = i`). -/
def setIndex (s : Sched) (t : Nat) (i : Int) : Sched :=
  { s with store := Function.update s.store t { s.store t with index := i } }

/-- Write the `when` field of record `t` (the Go assignment `t.when = v`). -/
def setWhen (s : Sched) (t : Nat) (v : Int) : Sched :=
  { s with store := Function.update s.store t { s.store t with when := v } }

/-- Write the `period` field of record `t`. -/
def setPeriod (s : Sched) (t : Nat) (v : Int) : Sched :=
  { s with store := Function.update s.store t { s.store t with period := v } }

/-- src/relativetime/schedule.go:12-17: `peek` returns the head or none. -/
def peek (s : Sched) : Option Nat :=
  if s.size = 0 then none else some (s.arr 0)

/-- Parent position in the 4-ary heap: `(i - 1) / 4`
(src/relativetime/schedule.go:70). -/
def parent4 (j : Nat) : Nat := (j - 1) / 4

/-- The final placement step shared by `siftup` and `siftdown`
(`q[i] = t; q[i].index = i`). -/
def place (s : Sched) (t : Nat) (i : Nat) : Sched :=
  setIndex (setArr s i t) t (i : Int)

/-- Body of the `siftup` loop (src/relativetime/schedule.go:67-88).
The hole is at position `i`; parents larger than `t.when` are moved down.
`fuel ≥ i` makes the fuel-indexed recursion equal to the Go loop. -/
def siftupLoop (t : Nat) : Nat → Sched → Nat → Sched × Nat
  | 0, s, i => (s, i)
  | fuel + 1, s, i =>
    if i = 0 then (s, i)
    else
      let p := parent4 i
      if (s.store t).when < (s.store (s.arr p)).when then
        siftupLoop t fuel (setIndex (setArr s i (s.arr p)) (s.arr p) (i : Int)) p
      else (s, i)

/-- src/relativetime/schedule.go:67-88: `siftup` moves `t` toward the root.
The trailing conditional is Go's `if t != q[i] { q[i] = t; q[i].index = i }`. -/
def siftup (s : Sched) (t : Nat) : Sched :=
  let i0 := (s.store t).index.toNat
  let r := siftupLoop t i0 s i0
  if r.1.arr r.2 ≠ t then place r.1 t r.2 else r.1

/-- The inner minimum-child scan of `siftdown`
(src/relativetime/schedule.go:106-114): fold over the candidate positions
`c+1 .. c4`, keeping the first position attaining the strictly smallest
`when`. -/
def pickMin (s : Sched) : List Nat → Nat × Int → Nat × Int
  | [], acc => acc
  | j :: js, acc =>
    if (s.store (s.arr j)).when < acc.2 then
      pickMin s js (j, (s.store (s.arr j)).when)
    else pickMin s js acc

/-- Body of the `siftdown` loop (src/relativetime/schedule.go:93-127).
`n` is the heap length read at entry; `fuel ≥ n` suffices. -/
def siftdownLoop (t : Nat) (n : Nat) : Nat → Sched → Nat → Sched × Nat
  | 0, s, i => (s, i)
  | fuel + 1, s, i =>
    let c := 4 * i + 1
    if n ≤ c then (s, i)
    else
      let c4 := min (c + 3) (n - 1)
      let cw := pickMin s (List.range' (c + 1) (c4 - c)) (c, (s.store (s.arr c)).when)
      if cw.2 < (s.store t).when then
        siftdownLoop t n fuel (setIndex (setArr s i (s.arr cw.1)) (s.arr cw.1) (i : Int)) cw.1
      else (s, i)

/-- src/relativetime/schedule.go:93-133: `siftdown` moves `t` toward the
leaves, swapping with the smallest child while it is smaller than `t`. -/
def siftdown (s : Sched) (t : Nat) : Sched :=
  let i0 := (s.store t).index.toNat
  let r := siftdownLoop t s.size s.size s i0
  if r.1.arr r.2 ≠ t then place r.1 t r.2 else r.1

/-- src/relativetime/schedule.go:27-32: `insert` appends `t`
(`t.index = len(*q)`) and sifts it up. -/
def insert (s : Sched) (t : Nat) : Sched :=
  let s1 := setIndex s t (s.size : Int)
  let s2 := { s1 with arr := Function.update s1.arr s1.size t, size := s1.size + 1 }
  siftup s2 t

/-- src/relativetime/schedule.go:55-63: `fix` re-heapifies after `t.when`
changed: sift down, and if the index did not move, sift up. -/
def fix (s : Sched) (t : Nat) : Sched :=
  let i0 := (s.store t).index
  let s1 := siftdown s t
  if (s1.store t).index = i0 then siftup s1 t else s1

/-- src/relativetime/schedule.go:37-53: `remove` swaps the last element
into `t`'s slot, re-heapifies the shortened queue, and detaches `t`
(`t.index = -1`).  The Go write `(*q)[n] = nil` clears a slot beyond the
new length and has no observable counterpart here. -/
def remove (s : Sched) (t : Nat) : Sched :=
  let i := (s.store t).index.toNat
  let n := s.size - 1
  let s1 :=
    if i ≠ n then
      let m := s.arr n
      let s' := setIndex (setArr s i m) m (i : Int)
      fix { s' with size := n } m
    else s
  { setIndex s1 t (-1) with size := n }

/-- Membership of id `t` in the heap array. -/
def memQ (s : Sched) (t : Nat) : Prop := ∃ j, j < s.size ∧ s.arr j = t

instance (s : Sched) (t : Nat) : Decidable (memQ s t) := by
  unfold memQ; infer_instance

end Sched

/-! ## The relative clock (single-queue variant, src/relativetime/clock.go:613-1122)

State of `Clock[T, D, RT]` instantiated at integer-nanosecond time over a
stepped reference clock.  `refNow` is the reference clock's current time
(`c.ref.Now()`); a stepped reference only moves when explicitly stepped, so
within the modelled operation sequences it is a state field read by the
clock.  The reference waker timer is modelled by whether it has been
created (`wakerExists`) and whether it is currently armed (`wakerArmed`);
`nextAt` is the local time the waker is armed for.  `chans id` is the
capacity-1 channel of the timer record `id` (`none` = empty), and `fired`
logs every invocation `t.f(now)` as a pair `(id, now)`. -/
structure ClockState where
  scale : ℚ
  active : Bool
  now : Int
  rNow : Int
  sched : Sched
  chans : Nat → Option Int
  fired : List (Nat × Int)
  wakerExists : Bool
  wakerArmed : Bool
  nextAt : Int
  refNow : Int

namespace ClockState

/-- src/relativetime/clock.go:106-120 (`nowLocal`): the lazy coordinate
transform, projecting reference instant `r` to local time. -/
def nowLocal (c : ClockState) (r : Int) : Int :=
  if ¬c.active ∨ c.scale = 0 ∨ r = c.rNow then c.now
  else
    let dt := r - c.rNow
    let dt := if c.scale ≠ 1 then secondsToDur (durSeconds dt * c.scale) else dt
    c.now + dt

/-- src/relativetime/clock.go:695-712 (`advanceRef`): refresh the sync
point at reference instant `r`. -/
def advanceRef (c : ClockState) (r : Int) : ClockState :=
  { c with now := c.nowLocal r, rNow := r }

/-- src/relativetime/clock.go:714-733 (`stopWaker`): interrupt/stop the
armed reference timer.  Observable effect: the waker is no longer armed. -/
def stopWaker (c : ClockState) : ClockState :=
  { c with wakerArmed := false }

/-- src/relativetime/clock.go:735-778 (`resetWaker`).  Note the guard is
`scale == 0.0`, not `scale ≤ 0`. -/
def resetWaker (c : ClockState) (dirty : Bool) : ClockState :=
  if ¬c.active ∨ c.scale = 0 then c.stopWaker
  else
    match c.sched.peek with
    | none => c.stopWaker
    | some next =>
      if ¬dirty ∧ c.wakerExists ∧ (c.sched.store next).when = c.nextAt then c
      else
        -- nextAt = next.when; stopWaker; arm (create or reset) for
        -- dt = Seconds(next.when.Sub(c.now).Seconds() / c.scale)
        { c with nextAt := (c.sched.store next).when,
                 wakerExists := true, wakerArmed := true }

/-- The observable effect of invoking a record's callback `t.f(now)`:
non-blocking send on its capacity-1 channel (dropped if full,
src/relativetime/clock.go:1021-1027) and an entry in the invocation log. -/
def fireTimer (c : ClockState) (id : Nat) (t : Int) : ClockState :=
  { c with
    chans := Function.update c.chans id
      (match c.chans id with | none => some t | some v => some v),
    fired := c.fired ++ [(id, t)] }

/-- src/relativetime/clock.go:797-814: `schedule`/`unschedule`/`reschedule`.
`heap.Push`, `heap.Remove` and `heap.Fix` of `container/heap` are modelled
by the package's own `queue.insert`/`remove`/`fix`
(src/relativetime/schedule.go), which implement the same contract. -/
def unschedule (c : ClockState) (t : Nat) : ClockState :=
  if (c.sched.store t).index = -1 then c else { c with sched := c.sched.remove t }

/-- `reschedule` (src/relativetime/clock.go:808-814): insert if detached,
otherwise re-heapify in place. -/
def reschedule (c : ClockState) (t : Nat) : ClockState :=
  if (c.sched.store t).index = -1 then { c with sched := c.sched.insert t }
  else { c with sched := c.sched.fix t }

/-- The drain loop of `checkSchedule` (src/relativetime/clock.go:781-790),
with explicit fuel.  Each due head is unscheduled (one-shot) or
re-inserted at `c.now + period` (periodic), then fired with `c.now`. -/
def checkSched : Nat → ClockState → ClockState
  | 0, c => c
  | fuel + 1, c =>
    match c.sched.peek with
    | none => c
    | some t =>
      if c.now < (c.sched.store t).when then c
      else
        let c1 :=
          if durSeconds (c.sched.store t).period ≤ 0 then
            c.unschedule t
          else
            ({ c with sched := c.sched.setWhen t (c.now + (c.sched.store t).period) } :
              ClockState).reschedule t
        checkSched fuel (c1.fireTimer t c.now)

/-- src/relativetime/clock.go:781-793 (`checkSchedule`): drain all due
events, then `resetWaker(false)`. -/
def checkSchedule (c : ClockState) : ClockState :=
  (checkSched c.sched.size c).resetWaker false

/-- src/relativetime/clock.go:819-828 (`wake`): waker callback at
reference instant `r`; advance only forward, then drain. -/
def wake (c : ClockState) (r : Int) : ClockState :=
  let c1 := if c.rNow < r then c.advanceRef r else c
  c1.checkSchedule

/-- src/relativetime/clock.go:832-841 (`Start`). -/
def start (c : ClockState) : ClockState :=
  let c1 := c.advanceRef c.refNow
  let dirty := ¬c1.active
  ({ c1 with active := true } : ClockState).resetWaker dirty

/-- src/relativetime/clock.go:845-854 (`Stop`). -/
def stop (c : ClockState) : ClockState :=
  let c1 := c.advanceRef c.refNow
  let dirty := c1.active
  ({ c1 with active := false } : ClockState).resetWaker dirty

/-- src/relativetime/clock.go:863-872 (`SetScale`). -/
def setScale (c : ClockState) (s : ℚ) : ClockState :=
  let c1 := c.advanceRef c.refNow
  let dirty := c1.scale ≠ s
  ({ c1 with scale := s } : ClockState).resetWaker dirty

/-- src/relativetime/clock.go:884-892 (`Set`): reset the sync point to the
given local time (no `advanceRef` first), then drain. -/
def setTime (c : ClockState) (t : Int) : ClockState :=
  ({ c with now := t, rNow := c.refNow } : ClockState).checkSchedule

/-- src/relativetime/clock.go:897-907 (`Step`): advance local time by `dt`,
then drain. -/
def step (c : ClockState) (dt : Int) : ClockState :=
  let c1 := c.advanceRef c.refNow
  ({ c1 with now := c1.now + dt } : ClockState).checkSchedule

/-- src/relativetime/clock.go:911-917 (`NextAt`, single-queue variant):
head `when`, or the zero time if nothing is scheduled. -/
def nextAtOp (c : ClockState) : Int :=
  match c.sched.peek with
  | none => 0
  | some next => (c.sched.store next).when

/-- src/relativetime/clock.go:925-933 (`Now`): advance the sync point and
return the local time.  Returns the post-state and the value. -/
def nowOp (c : ClockState) : ClockState × Int :=
  let c1 := c.advanceRef c.refNow
  (c1, c1.now)

/-- Allocate a fresh record (the Go `&timer{...}` literal plus its fresh
channel); the Go zero value of `index` is `0`. -/
def alloc (c : ClockState) (whenV periodV : Int) : ClockState × Nat :=
  let id := c.sched.nids
  (⟨c.scale, c.active, c.now, c.rNow,
    { c.sched with
      store := Function.update c.sched.store id ⟨whenV, periodV, 0⟩,
      nids := c.sched.nids + 1 },
    Function.update c.chans id none, c.fired,
    c.wakerExists, c.wakerArmed, c.nextAt, c.refNow⟩, id)

/-- src/relativetime/clock.go:1084-1103 (`NewTimer`): one-shot at
`now + d`; schedule and re-arm. -/
def newTimer (c : ClockState) (d : Int) : ClockState × Nat :=
  let c1 := c.advanceRef c.refNow
  let a := c1.alloc (c1.now + d) 0
  (({ a.1 with sched := a.1.sched.insert a.2 } : ClockState).resetWaker false, a.2)

/-- src/relativetime/clock.go:1011-1035 (`NewTicker`) minus the panic
check, which `newTicker` adds. -/
def newTickerCore (c : ClockState) (d : Int) : ClockState × Nat :=
  let c1 := c.advanceRef c.refNow
  let a := c1.alloc (c1.now + d) d
  (({ a.1 with sched := a.1.sched.insert a.2 } : ClockState).resetWaker false, a.2)

/-- src/relativetime/clock.go:1011-1035 (`NewTicker`): panics (modelled as
`none`) iff `d.Seconds() ≤ 0`. -/
def newTicker (c : ClockState) (d : Int) : Option (ClockState × Nat) :=
  if durSeconds d ≤ 0 then none else some (c.newTickerCore d)

/-- src/relativetime/clock.go:1037-1043 (`Tick`): `nil` channel (here
`none`) if `d ≤ 0`, otherwise the new ticker's channel id. -/
def tick (c : ClockState) (d : Int) : ClockState × Option Nat :=
  if durSeconds d ≤ 0 then (c, none)
  else
    let r := c.newTickerCore d
    (r.1, some r.2)

/-- src/relativetime/clock.go:1109-1122 (`AfterFunc`): like `NewTimer`;
the callback spawns `f` in a fresh goroutine, observable here only through
the `fired` log. -/
def afterFunc (c : ClockState) (d : Int) : ClockState × Nat :=
  let c1 := c.advanceRef c.refNow
  let a := c1.alloc (c1.now + d) 0
  (({ a.1 with sched := a.1.sched.insert a.2 } : ClockState).resetWaker false, a.2)

/-- src/relativetime/clock.go:943-960 (`Sleep`): `d ≤ 0` returns
immediately with nothing scheduled; otherwise schedule a one-shot whose
fire releases the sleeper (the blocking receive itself is outside the
state model). -/
def sleepSched (c : ClockState) (d : Int) : ClockState :=
  if durSeconds d ≤ 0 then c
  else
    let c1 := c.advanceRef c.refNow
    let a := c1.alloc (c1.now + d) 0
    ({ a.1 with sched := a.1.sched.insert a.2 } : ClockState).resetWaker false

/-- src/relativetime/clock.go:1055-1069 (`Timer.Reset`) on an initialized
handle: `now := s.Now()` (which advances the sync point), set `when`, read
whether it was pending, reschedule, re-arm.  Returns the post-state and
the reported `active`. -/
def timerReset (c : ClockState) (t : Nat) (d : Int) : ClockState × Bool :=
  let c1 := c.advanceRef c.refNow
  let wasActive := (c1.sched.store t).index ≠ -1
  let c2 := { c1 with sched := c1.sched.setWhen t (c1.now + d) }
  ((c2.reschedule t).resetWaker false, wasActive)

/-- src/relativetime/clock.go:1071-1082 (`Timer.Stop`) on an initialized
handle: read whether it was pending, unschedule, re-arm. -/
def timerStop (c : ClockState) (t : Nat) : ClockState × Bool :=
  let wasActive := (c.sched.store t).index ≠ -1
  ((c.unschedule t).resetWaker false, wasActive)

/-- src/relativetime/clock.go:982-998 (`Ticker.Reset`) on an initialized
handle, minus the panic check (added by `tickerReset`). -/
def tickerResetCore (c : ClockState) (t : Nat) (d : Int) : ClockState :=
  let c1 := c.advanceRef c.refNow
  let c2 := { c1 with sched := (c1.sched.setWhen t (c1.now + d)).setPeriod t d }
  (c2.reschedule t).resetWaker false

/-- src/relativetime/clock.go:982-998 (`Ticker.Reset`): panics (`none`)
iff `d.Seconds() ≤ 0` or the handle is uninitialized (`none` record). -/
def tickerReset (c : ClockState) (h : Option Nat) (d : Int) :
    Option ClockState :=
  if durSeconds d ≤ 0 then none
  else
    match h with
    | none => none
    | some t => some (c.tickerResetCore t d)

/-- src/relativetime/clock.go:1000-1009 (`Ticker.Stop`): panics (`none`)
on an uninitialized handle. -/
def tickerStop (c : ClockState) (h : Option Nat) : Option ClockState :=
  match h with
  | none => none
  | some t => some ((c.unschedule t).resetWaker false)

/-- `Timer.Reset` on a possibly-uninitialized handle
(src/relativetime/clock.go:1055-1058): nil record panics. -/
def timerResetH (c : ClockState) (h : Option Nat) (d : Int) :
    Option (ClockState × Bool) :=
  match h with
  | none => none
  | some t => some (c.timerReset t d)

/-- `Timer.Stop` on a possibly-uninitialized handle
(src/relativetime/clock.go:1071-1074): nil record panics. -/
def timerStopH (c : ClockState) (h : Option Nat) : Option (ClockState × Bool) :=
  match h with
  | none => none
  | some t => some (c.timerStop t)

end ClockState

/-- `NewClock(ref, at, scale)` (src/relativetime/clock.go:676-685) over a
stepped reference currently at `r0`: inactive, synced at `(at, r0)`, empty
queue, no waker. -/
def newClock (at0 : Int) (scale : ℚ) (r0 : Int) : ClockState :=
  ⟨scale, false, at0, r0,
   ⟨fun _ => ⟨0, 0, 0⟩, fun _ => 0, 0, 0⟩,
   fun _ => none, [], false, false, 0, r0⟩

/-! ## `NextAt` of the sharded variant (src/relativetime/clock.go:323-335)

The sharded clock keeps `nwakers = 4` independent queues.  Its `NextAt`
evaluates, for each shard, the Go condition
`next != nil && when.IsZero() || when.After(next.when)`;
`&&` binds tighter than `||`, so when `next == nil` the right disjunct
dereferences `next.when`.  A panic is modelled as `none`. -/
def nextAtShardStep (s : Sched) (when : Int) : Option Int :=
  match s.peek with
  | some next =>
    if when = 0 then some (s.wh next)
    else if s.wh next < when then some (s.wh next)
    else some when
  | none =>
    -- left disjunct is false; evaluating `when.After(next.when)`
    -- dereferences the nil `next`: runtime panic
    none

/-- The loop of the sharded `NextAt` over the four waker shards,
starting from the zero time. -/
def nextAtSharded (qs : Fin 4 → Sched) : Option Int :=
  (List.finRange 4).foldlM (fun when i => nextAtShardStep (qs i) when) 0

/-! ## Frame lemmas for the waker bookkeeping -/

namespace ClockState

@[simp] theorem stopWaker_scale (c : ClockState) : c.stopWaker.scale = c.scale := rfl
@[simp] theorem stopWaker_active (c : ClockState) : c.stopWaker.active = c.active := rfl
@[simp] theorem stopWaker_now (c : ClockState) : c.stopWaker.now = c.now := rfl
@[simp] theorem stopWaker_rNow (c : ClockState) : c.stopWaker.rNow = c.rNow := rfl
@[simp] theorem stopWaker_refNow (c : ClockState) : c.stopWaker.refNow = c.refNow := rfl
@[simp] theorem stopWaker_sched (c : ClockState) : c.stopWaker.sched = c.sched := rfl
@[simp] theorem stopWaker_fired (c : ClockState) : c.stopWaker.fired = c.fired := rfl
@[simp] theorem stopWaker_chans (c : ClockState) : c.stopWaker.chans = c.chans := rfl

theorem resetWaker_frame (c : ClockState) (b : Bool) :
    (c.resetWaker b).scale = c.scale ∧ (c.resetWaker b).active = c.active ∧
    (c.resetWaker b).now = c.now ∧ (c.resetWaker b).rNow = c.rNow ∧
    (c.resetWaker b).refNow = c.refNow ∧ (c.resetWaker b).sched = c.sched ∧
    (c.resetWaker b).fired = c.fired ∧ (c.resetWaker b).chans = c.chans := by
  unfold resetWaker
  repeat' split
  all_goals simp

@[simp] theorem resetWaker_scale (c : ClockState) (b : Bool) :
    (c.resetWaker b).scale = c.scale := (resetWaker_frame c b).1
@[simp] theorem resetWaker_active (c : ClockState) (b : Bool) :
    (c.resetWaker b).active = c.active := (resetWaker_frame c b).2.1
@[simp] theorem resetWaker_now (c : ClockState) (b : Bool) :
    (c.resetWaker b).now = c.now := (resetWaker_frame c b).2.2.1
@[simp] theorem resetWaker_rNow (c : ClockState) (b : Bool) :
    (c.resetWaker b).rNow = c.rNow := (resetWaker_frame c b).2.2.2.1
@[simp] theorem resetWaker_refNow (c : ClockState) (b : Bool) :
    (c.resetWaker b).refNow = c.refNow := (resetWaker_frame c b).2.2.2.2.1
@[simp] theorem resetWaker_sched (c : ClockState) (b : Bool) :
    (c.resetWaker b).sched = c.sched := (resetWaker_frame c b).2.2.2.2.2.1
@[simp] theorem resetWaker_fired (c : ClockState) (b : Bool) :
    (c.resetWaker b).fired = c.fired := (resetWaker_frame c b).2.2.2.2.2.2.1
@[simp] theorem resetWaker_chans (c : ClockState) (b : Bool) :
    (c.resetWaker b).chans = c.chans := (resetWaker_frame c b).2.2.2.2.2.2.2

@[simp] theorem advanceRef_scale (c : ClockState) (r : Int) :
    (c.advanceRef r).scale = c.scale := rfl
@[simp] theorem advanceRef_active (c : ClockState) (r : Int) :
    (c.advanceRef r).active = c.active := rfl
@[simp] theorem advanceRef_rNow (c : ClockState) (r : Int) :
    (c.advanceRef r).rNow = r := rfl
@[simp] theorem advanceRef_refNow (c : ClockState) (r : Int) :
    (c.advanceRef r).refNow = c.refNow := rfl
@[simp] theorem advanceRef_sched (c : ClockState) (r : Int) :
    (c.advanceRef r).sched = c.sched := rfl
@[simp] theorem advanceRef_fired (c : ClockState) (r : Int) :
    (c.advanceRef r).fired = c.fired := rfl
@[simp] theorem advanceRef_chans (c : ClockState) (r : Int) :
    (c.advanceRef r).chans = c.chans := rfl
@[simp] theorem advanceRef_now (c : ClockState) (r : Int) :
    (c.advanceRef r).now = c.nowLocal r := rfl

@[simp] theorem nowLocal_self (c : ClockState) : c.nowLocal c.rNow = c.now := by
  unfold nowLocal
  rw [if_pos]
  exact Or.inr (Or.inr rfl)

end ClockState

/-! ## Concrete states used by scenarios, counterexamples and witnesses -/

/-- The scenario of C1: `new(ref, at=0, scale=1)`, `start()`,
`new_ticker(50)` (the non-panicking branch of `NewTicker`, `50 > 0`),
then `step(175)`.  The ticker's record gets id `0`. -/
def scenarioC1 : ClockState :=
  ((((newClock 0 1 0).start).newTickerCore 50).1).step 175

/-- A state with a strictly negative scale, active, and one pending
timer (id 0, `when = 100`), waker not yet created. -/
def negScaleState : ClockState :=
  ⟨-1, true, 0, 0, ⟨fun _ => ⟨100, 0, 0⟩, fun _ => 0, 1, 1⟩,
   fun _ => none, [], false, false, 0, 0⟩

/-- An empty scheduler (no records, no queue). -/
def emptySched : Sched := ⟨fun _ => ⟨0, 0, 0⟩, fun _ => 0, 0, 0⟩

/-! ## C1 -/

/-- C1, counterexample: in the scenario `new_ticker(50); step(175)` the
ticker's channel contains the single value `175`, not the claimed last
tick `150`: `checkSchedule` fires the due ticker once with the local now
at drain time and advances `when` from that now, so ticks at 50, 100, 150
are never generated. -/
theorem c1_ticker_drop_counterexample :
    scenarioC1.chans 0 = some 175 ∧ scenarioC1.chans 0 ≠ some 150 := by
  constructor
  · decide
  · decide

/-- C1, amended: after `new_ticker(50)` and `step(175)` the channel holds
exactly one value, `175` (the local now at the moment of fire); the fire
log shows exactly one invocation `(0, 175)`; the ticker stays scheduled
with its next `when` advanced to `225 = 175 + 50`. -/
theorem c1_ticker_step_amended :
    scenarioC1.chans 0 = some 175 ∧
    scenarioC1.fired = [(0, 175)] ∧
    scenarioC1.sched.store 0 = ⟨225, 50, 0⟩ ∧
    scenarioC1.sched.size = 1 ∧ scenarioC1.sched.arr 0 = 0 := by
  refine ⟨by decide, by decide, by decide, by decide, by decide⟩

/-! ## C2 -/

/-- C2, counterexample: the claim says the waker is never armed whenever
`scale ≤ 0`.  But `resetWaker` only tests `scale == 0.0`
(src/relativetime/clock.go:736): on an active clock with `scale = -1` and
a non-empty queue it arms (indeed creates) the waker. -/
theorem c2_negative_scale_arms_waker :
    negScaleState.scale < 0 ∧ negScaleState.active = true ∧
    negScaleState.sched.size ≠ 0 ∧ negScaleState.wakerExists = false ∧
    (negScaleState.resetWaker false).wakerArmed = true ∧
    (negScaleState.resetWaker false).wakerExists = true := by
  refine ⟨by decide, by decide, by decide, by decide, by decide, by decide⟩

/-- C2, amended: `resetWaker` cancels the waker and leaves it unarmed
(and creates none) whenever the clock is not active, or `scale = 0`
(not `scale ≤ 0`), or the queue is empty. -/
theorem c2_resetWaker_unarmed_amended (c : ClockState) (b : Bool)
    (h : ¬c.active ∨ c.scale = 0 ∨ c.sched.size = 0) :
    (c.resetWaker b).wakerArmed = false ∧
    (c.resetWaker b).wakerExists = c.wakerExists := by
  rcases h with h | h | h
  · unfold ClockState.resetWaker
    rw [if_pos (Or.inl h)]
    exact ⟨rfl, rfl⟩
  · unfold ClockState.resetWaker
    rw [if_pos (Or.inr h)]
    exact ⟨rfl, rfl⟩
  · unfold ClockState.resetWaker
    by_cases has : ¬c.active ∨ c.scale = 0
    · rw [if_pos has]; exact ⟨rfl, rfl⟩
    · rw [if_neg has]
      have hpk : c.sched.peek = none := by unfold Sched.peek; rw [if_pos h]
      rw [hpk]
      exact ⟨rfl, rfl⟩

/-- Witness for C2's amended theorem: an inactive clock. -/
theorem c2_resetWaker_unarmed_witness :
    (¬(newClock 0 1 0).active ∨ (newClock 0 1 0).scale = 0 ∨
      (newClock 0 1 0).sched.size = 0) ∧
    ((newClock 0 1 0).resetWaker false).wakerArmed = false ∧
    ((newClock 0 1 0).resetWaker false).wakerExists =
      (newClock 0 1 0).wakerExists :=
  ⟨Or.inl (by decide), c2_resetWaker_unarmed_amended _ false (Or.inl (by decide))⟩

/-! ## C3 -/

theorem ratTrunc_intCast (d : Int) : ratTrunc (d : ℚ) = d := by
  rw [ratTrunc, Rat.num_intCast, Rat.den_intCast]
  exact Int.tdiv_one d

theorem secondsToDur_durSeconds (d : Int) : secondsToDur (durSeconds d) = d := by
  rw [secondsToDur, durSeconds, div_mul_cancel₀ _ (by norm_num : (1000000000 : ℚ) ≠ 0)]
  exact ratTrunc_intCast d

/-- C3: the lazy coordinate transform.  When the clock is inactive, or
`scale = 0`, or `r` equals the reference sync point, `nowLocal` returns
the local sync point unchanged; and whenever the clock is active with a
non-zero scale it returns
`now_local + seconds_to_duration((r − now_ref).Seconds() × scale)`
(for `scale = 1` the code skips the conversion, which is exact here). -/
theorem c3_nowLocal_transform (c : ClockState) (r : Int) :
    ((¬c.active ∨ c.scale = 0 ∨ r = c.rNow) → c.nowLocal r = c.now) ∧
    (c.active = true → c.scale ≠ 0 →
      c.nowLocal r = c.now + secondsToDur (durSeconds (r - c.rNow) * c.scale)) := by
  constructor
  · intro h
    unfold ClockState.nowLocal
    rw [if_pos h]
  · intro ha hs
    by_cases hr : r = c.rNow
    · subst hr
      rw [ClockState.nowLocal_self, sub_self]
      norm_num [durSeconds, secondsToDur, ratTrunc]
    · unfold ClockState.nowLocal
      rw [if_neg (by simp [ha, hs, hr])]
      by_cases h1 : c.scale = 1
      · simp only [h1, ne_eq, not_true_eq_false, if_false, mul_one,
          secondsToDur_durSeconds]
      · simp only [ne_eq, h1, not_false_eq_true, if_true]

/-- Witness for C3: an active scale-1 clock, projected to `r = 7`. -/
theorem c3_nowLocal_transform_witness :
    ((newClock 0 1 0).start).active = true ∧ ((newClock 0 1 0).start).scale ≠ 0 ∧
    ((newClock 0 1 0).start).nowLocal 7 =
      ((newClock 0 1 0).start).now +
        secondsToDur (durSeconds (7 - ((newClock 0 1 0).start).rNow) *
          ((newClock 0 1 0).start).scale) :=
  ⟨by decide, by decide,
    (c3_nowLocal_transform ((newClock 0 1 0).start) 7).2 (by decide) (by decide)⟩

/-! ## C8 -/

/-- C8: error handling of the timer/ticker surface.  `NewTicker` and
`Ticker.Reset` panic (modelled as `none`) exactly when `d ≤ 0`; `Reset`
or `Stop` on an uninitialized handle (nil record) panics; `Tick` with
`d ≤ 0` returns a nil channel without panicking (it is a total function);
`Sleep` with `d ≤ 0` returns at once with the state — in particular the
queue — unchanged.  None of these operations has an error return: their
result types carry no error component, panics aside. -/
theorem c8_error_handling (c : ClockState) (d : Int) :
    ((c.newTicker d) = none ↔ d ≤ 0) ∧
    (∀ id, (c.tickerReset (some id) d) = none ↔ d ≤ 0) ∧
    (c.tickerReset none d = none) ∧
    (c.tickerStop none = none) ∧
    (c.timerResetH none d = none) ∧
    (c.timerStopH none = none) ∧
    (d ≤ 0 → c.tick d = (c, none)) ∧
    (d ≤ 0 → c.sleepSched d = c) := by
  refine ⟨?_, ?_, ?_, rfl, rfl, rfl, ?_, ?_⟩
  · unfold ClockState.newTicker
    split
    · simp_all [durSeconds_le_zero]
    · simp_all [durSeconds_le_zero]
  · intro id
    unfold ClockState.tickerReset
    split
    · simp_all [durSeconds_le_zero]
    · simp_all [durSeconds_le_zero]
  · unfold ClockState.tickerReset
    split
    · rfl
    · rfl
  · intro h
    unfold ClockState.tick
    rw [if_pos ((durSeconds_le_zero d).mpr h)]
  · intro h
    unfold ClockState.sleepSched
    rw [if_pos ((durSeconds_le_zero d).mpr h)]

/-- Witness for C8 at `d = 0` on a fresh clock. -/
theorem c8_error_handling_witness :
    ((0 : Int) ≤ 0) ∧
    (newClock 0 1 0).tick 0 = (newClock 0 1 0, none) ∧
    (newClock 0 1 0).sleepSched 0 = newClock 0 1 0 :=
  ⟨by decide, (c8_error_handling (newClock 0 1 0) 0).2.2.2.2.2.2.1 (by decide),
    (c8_error_handling (newClock 0 1 0) 0).2.2.2.2.2.2.2 (by decide)⟩

/-! ## C9 -/

/-- C9: on an active clock, `Stop()` immediately followed by `Start()`
(reference time unchanged in between — the stepped reference moves only
when explicitly stepped) preserves every observable: the value reported
by `Now()`, the scale, the active flag, the whole event queue (records,
heap array, size), the channels and the fire log. -/
theorem c9_stop_start_noop (c : ClockState) (h : c.active = true) :
    (c.stop.start).nowOp.2 = c.nowOp.2 ∧
    (c.stop.start).scale = c.scale ∧
    (c.stop.start).active = c.active ∧
    (c.stop.start).sched = c.sched ∧
    (c.stop.start).chans = c.chans ∧
    (c.stop.start).fired = c.fired := by
  have hsrN : (c.stop).rNow = c.refNow := by simp [ClockState.stop]
  have hsrefN : (c.stop).refNow = c.refNow := by simp [ClockState.stop]
  have hsnow : (c.stop).now = c.nowLocal c.refNow := by simp [ClockState.stop]
  have hstnow : (c.stop.start).now = (c.stop).now := by
    simp only [ClockState.start, ClockState.resetWaker_now,
      ClockState.advanceRef_now]
    rw [hsrefN, ← hsrN]
    exact ClockState.nowLocal_self _
  have hstrN : (c.stop.start).rNow = c.refNow := by
    simp [ClockState.start, hsrefN]
  have hstrefN : (c.stop.start).refNow = c.refNow := by
    simp [ClockState.start, hsrefN]
  refine ⟨?_, by simp [ClockState.start, ClockState.stop],
    by simp [ClockState.start, h],
    by simp [ClockState.start, ClockState.stop],
    by simp [ClockState.start, ClockState.stop],
    by simp [ClockState.start, ClockState.stop]⟩
  unfold ClockState.nowOp
  simp only [ClockState.advanceRef_now]
  rw [hstrefN, ← hstrN, ClockState.nowLocal_self, hstnow, hsnow, hstrN]

/-- Witness for C9: a started clock with one scheduled ticker. -/
theorem c9_stop_start_noop_witness :
    (((newClock 0 1 0).start.newTickerCore 50).1).active = true ∧
    ((((newClock 0 1 0).start.newTickerCore 50).1).stop.start).nowOp.2 =
      (((newClock 0 1 0).start.newTickerCore 50).1).nowOp.2 :=
  ⟨by decide,
    (c9_stop_start_noop (((newClock 0 1 0).start.newTickerCore 50).1)
      (by decide)).1⟩

/-! ## C10 -/

/-- C10 (code bug): the sharded `NextAt` panics on any empty shard.  On a
freshly created sharded clock (all four shard queues empty, as
`NewClock` at src/relativetime/clock.go:72-86 produces) the loop's
condition evaluates `when.After(next.when)` with `next == nil` — the
Boolean `&&` binds tighter than `||` — and dereferences nil, although the
function's own comment says it returns a zero value when no timers are
scheduled.  The single-queue `NextAt` behaves as documented: zero value
on an empty queue, and the head's `when` (by C5's heap invariant, the
minimum) otherwise. -/
theorem c10_nextAt_sharded_panics :
    nextAtSharded (fun _ => emptySched) = none ∧
    (newClock 0 1 0).nextAtOp = 0 ∧
    scenarioC1.nextAtOp = 225 := by
  refine ⟨by decide, by decide, by decide⟩

/-! ## Heap invariants (src/relativetime/schedule.go) -/

namespace Sched

@[simp] theorem setArr_size (s : Sched) (i t : Nat) : (s.setArr i t).size = s.size := rfl
@[simp] theorem setArr_nids (s : Sched) (i t : Nat) : (s.setArr i t).nids = s.nids := rfl
@[simp] theorem setArr_store (s : Sched) (i t : Nat) : (s.setArr i t).store = s.store := rfl
@[simp] theorem setArr_arr_self (s : Sched) (i t : Nat) : (s.setArr i t).arr i = t := by
  simp [setArr]
theorem setArr_arr_ne (s : Sched) (i t : Nat) {j : Nat} (h : j ≠ i) :
    (s.setArr i t).arr j = s.arr j := by
  simp [setArr, Function.update_noteq h]

@[simp] theorem setIndex_size (s : Sched) (t : Nat) (i : Int) :
    (s.setIndex t i).size = s.size := rfl
@[simp] theorem setIndex_nids (s : Sched) (t : Nat) (i : Int) :
    (s.setIndex t i).nids = s.nids := rfl
@[simp] theorem setIndex_arr (s : Sched) (t : Nat) (i : Int) :
    (s.setIndex t i).arr = s.arr := rfl
@[simp] theorem setIndex_store_self (s : Sched) (t : Nat) (i : Int) :
    (s.setIndex t i).store t = { s.store t with index := i } := by
  simp [setIndex]
theorem setIndex_store_ne (s : Sched) (t : Nat) (i : Int) {x : Nat} (h : x ≠ t) :
    (s.setIndex t i).store x = s.store x := by
  simp [setIndex, Function.update_noteq h]
@[simp] theorem setIndex_when (s : Sched) (t : Nat) (i : Int) (x : Nat) :
    ((s.setIndex t i).store x).when = (s.store x).when := by
  by_cases h : x = t
  · subst h; simp
  · rw [setIndex_store_ne _ _ _ h]
@[simp] theorem setIndex_period (s : Sched) (t : Nat) (i : Int) (x : Nat) :
    ((s.setIndex t i).store x).period = (s.store x).period := by
  by_cases h : x = t
  · subst h; simp
  · rw [setIndex_store_ne _ _ _ h]

@[simp] theorem setWhen_size (s : Sched) (t : Nat) (v : Int) :
    (s.setWhen t v).size = s.size := rfl
@[simp] theorem setWhen_nids (s : Sched) (t : Nat) (v : Int) :
    (s.setWhen t v).nids = s.nids := rfl
@[simp] theorem setWhen_arr (s : Sched) (t : Nat) (v : Int) :
    (s.setWhen t v).arr = s.arr := rfl
@[simp] theorem setWhen_store_self (s : Sched) (t : Nat) (v : Int) :
    (s.setWhen t v).store t = { s.store t with when := v } := by
  simp [setWhen]
theorem setWhen_store_ne (s : Sched) (t : Nat) (v : Int) {x : Nat} (h : x ≠ t) :
    (s.setWhen t v).store x = s.store x := by
  simp [setWhen, Function.update_noteq h]

@[simp] theorem setPeriod_size (s : Sched) (t : Nat) (v : Int) :
    (s.setPeriod t v).size = s.size := rfl
@[simp] theorem setPeriod_nids (s : Sched) (t : Nat) (v : Int) :
    (s.setPeriod t v).nids = s.nids := rfl
@[simp] theorem setPeriod_arr (s : Sched) (t : Nat) (v : Int) :
    (s.setPeriod t v).arr = s.arr := rfl
theorem setPeriod_store_ne (s : Sched) (t : Nat) (v : Int) {x : Nat} (h : x ≠ t) :
    (s.setPeriod t v).store x = s.store x := by
  simp [setPeriod, Function.update_noteq h]
@[simp] theorem setPeriod_store_self (s : Sched) (t : Nat) (v : Int) :
    (s.setPeriod t v).store t = { s.store t with period := v } := by
  simp [setPeriod]

@[simp] theorem place_size (s : Sched) (t i : Nat) : (s.place t i).size = s.size := rfl
@[simp] theorem place_nids (s : Sched) (t i : Nat) : (s.place t i).nids = s.nids := rfl

/-- Invariant 1 of the spec (index validity, one direction): the record
at every heap position stores that position as its index. -/
def IdxOK (s : Sched) : Prop :=
  ∀ j, j < s.size → (s.store (s.arr j)).index = (j : Int)

/-- Invariant 2 of the spec (4-ary heap order). -/
def HeapOK (s : Sched) : Prop :=
  ∀ j, j < s.size → 0 < j →
    (s.store (s.arr (parent4 j))).when ≤ (s.store (s.arr j)).when

/-- Every id stored in the heap array is an allocated id. -/
def IdsOK (s : Sched) : Prop := ∀ j, j < s.size → s.arr j < s.nids

/-- Invariant 3 of the spec: every allocated record not in the queue is
detached (`index = -1`). -/
def DetOK (s : Sched) : Prop :=
  ∀ id, id < s.nids → ¬ s.memQ id → (s.store id).index = -1

instance (s : Sched) : Decidable (IdxOK s) := by unfold IdxOK; infer_instance
instance (s : Sched) : Decidable (HeapOK s) := by unfold HeapOK; infer_instance
instance (s : Sched) : Decidable (IdsOK s) := by unfold IdsOK; infer_instance
instance (s : Sched) : Decidable (DetOK s) := by unfold DetOK; infer_instance

theorem arr_inj (s : Sched) (h : IdxOK s) {j1 j2 : Nat}
    (h1 : j1 < s.size) (h2 : j2 < s.size) (he : s.arr j1 = s.arr j2) : j1 = j2 := by
  have e1 := h j1 h1
  have e2 := h j2 h2
  rw [he] at e1
  rw [e1] at e2
  exact_mod_cast e2

theorem index_of_memQ (s : Sched) (h : IdxOK s) {t : Nat} (hm : s.memQ t) :
    ∃ j, j < s.size ∧ s.arr j = t ∧ (s.store t).index = (j : Int) := by
  obtain ⟨j, hj, rfl⟩ := hm
  exact ⟨j, hj, rfl, h j hj⟩

theorem memQ_index_nonneg (s : Sched) (h : IdxOK s) {t : Nat} (hm : s.memQ t) :
    (s.store t).index ≠ -1 := by
  obtain ⟨j, _, _, hi⟩ := index_of_memQ s h hm
  omega

theorem not_memQ_of_neg (s : Sched) (h : IdxOK s) {t : Nat}
    (hi : (s.store t).index = -1) : ¬ s.memQ t :=
  fun hm => memQ_index_nonneg s h hm hi

/-- The root of a heap is a minimum. -/
theorem heap_root_min (s : Sched) (h : HeapOK s) :
    ∀ j, j < s.size → (s.store (s.arr 0)).when ≤ (s.store (s.arr j)).when := by
  intro j
  induction j using Nat.strong_induction_on with
  | _ j ih =>
    intro hj
    rcases Nat.eq_zero_or_pos j with rfl | hpos
    · exact le_refl _
    · have hp : parent4 j < j := by unfold parent4; omega
      exact le_trans (ih (parent4 j) hp (lt_trans hp hj)) (h j hj hpos)

end Sched

namespace Sched

theorem parent4_lt {i : Nat} (h : 0 < i) : parent4 i < i := by
  unfold parent4; omega

/-- Loop invariant of `siftup`: the conceptual hole is at position `i`
(`t` belongs there; the physical slot may still hold a stale copy of a
moved ancestor).  `s0` is the state at loop entry. -/
structure UpInv (s0 : Sched) (t : Nat) (s : Sched) (i : Nat) : Prop where
  hsize : s.size = s0.size
  hnids : s.nids = s0.nids
  hi : i < s.size
  a1 : ∀ j, j < s.size → j ≠ i → (s.store (s.arr j)).index = (j : Int)
  a2 : ∀ j, j < s.size → j ≠ i → s.arr j ≠ t
  a3 : s.arr i = t → (s.store t).index = (i : Int)
  h1 : ∀ j, j < s.size → 0 < j → j ≠ i → parent4 j ≠ i →
      (s.store (s.arr (parent4 j))).when ≤ (s.store (s.arr j)).when
  h2 : ∀ j, j < s.size → 0 < j → parent4 j = i →
      (s.store t).when ≤ (s.store (s.arr j)).when
  h3 : 0 < i → ∀ j, j < s.size → 0 < j → parent4 j = i →
      (s.store (s.arr (parent4 i))).when ≤ (s.store (s.arr j)).when
  fwhen : ∀ id, (s.store id).when = (s0.store id).when
  fperiod : ∀ id, (s.store id).period = (s0.store id).period
  fstore : ∀ id, ¬ s0.memQ id → id ≠ t → s.store id = s0.store id
  fmem : ∀ id, (∃ j, j < s.size ∧ Function.update s.arr i t j = id) ↔ s0.memQ id

/-- Post-condition of the heap-restoring operations, relative to the
entry state `s0`: both invariants hold, and nothing but `t`'s record and
the heap array changed — all `when`/`period` fields are untouched, the
records of ids outside the queue (other than `t`) are untouched, and
queue membership is unchanged. -/
structure HeapFine (s0 : Sched) (t : Nat) (s : Sched) : Prop where
  hsize : s.size = s0.size
  hnids : s.nids = s0.nids
  idx : IdxOK s
  hp : HeapOK s
  fwhen : ∀ id, (s.store id).when = (s0.store id).when
  fperiod : ∀ id, (s.store id).period = (s0.store id).period
  fstore : ∀ id, ¬ s0.memQ id → id ≠ t → s.store id = s0.store id
  fmem : ∀ id, s.memQ id ↔ s0.memQ id

theorem upinv_place {s0 : Sched} {t : Nat} {s : Sched} {i : Nat}
    (hinv : UpInv s0 t s i)
    (hpar : 0 < i → (s.store (s.arr (parent4 i))).when ≤ (s.store t).when) :
    HeapFine s0 t (s.place t i) := by
  have hwhen : ∀ x, ((s.place t i).store x).when = (s.store x).when := by
    intro x; unfold place; simp
  have harr_self : (s.place t i).arr i = t := by
    unfold place; simp
  have harr_ne : ∀ j, j ≠ i → (s.place t i).arr j = s.arr j := by
    intro j hj; unfold place; simp [setArr_arr_ne _ _ _ hj]
  refine ⟨hinv.hsize, hinv.hnids, ?_, ?_, ?_, ?_, ?_, ?_⟩
  · -- IdxOK
    intro j hj
    rw [place_size] at hj
    by_cases hji : j = i
    · subst hji
      rw [harr_self]
      unfold place; simp
    · rw [harr_ne j hji]
      have hne := hinv.a2 j hj hji
      unfold place
      rw [setIndex_store_ne _ _ _ hne]
      simpa using hinv.a1 j hj hji
  · -- HeapOK
    intro j hj hj0
    rw [place_size] at hj
    rw [hwhen, hwhen]
    by_cases hji : j = i
    · subst hji
      rw [harr_self, harr_ne _ (Nat.ne_of_lt (parent4_lt hj0))]
      exact hpar hj0
    · rw [harr_ne j hji]
      by_cases hpi : parent4 j = i
      · rw [hpi, harr_self]
        exact hinv.h2 j hj hj0 hpi
      · rw [harr_ne _ hpi]
        exact hinv.h1 j hj hj0 hji hpi
  · intro id; rw [hwhen]; exact hinv.fwhen id
  · intro id
    have : ((s.place t i).store id).period = ((s.store id)).period := by
      unfold place; simp
    rw [this]; exact hinv.fperiod id
  · intro id hm hnt
    have : (s.place t i).store id = s.store id := by
      unfold place
      rw [setIndex_store_ne _ _ _ hnt]
      rfl
    rw [this]; exact hinv.fstore id hm hnt
  · intro id
    rw [← hinv.fmem id]
    unfold memQ
    constructor
    · rintro ⟨j, hj, hje⟩
      rw [place_size] at hj
      refine ⟨j, hj, ?_⟩
      by_cases hji : j = i
      · subst hji; rw [Function.update_same]
        rw [harr_self] at hje; exact hje
      · rw [Function.update_noteq hji]
        rw [harr_ne j hji] at hje; exact hje
    · rintro ⟨j, hj, hje⟩
      refine ⟨j, by rw [place_size]; exact hj, ?_⟩
      by_cases hji : j = i
      · subst hji; rw [harr_self]
        rw [Function.update_same] at hje; exact hje
      · rw [harr_ne j hji]
        rw [Function.update_noteq hji] at hje; exact hje

theorem upinv_move {s0 : Sched} {t : Nat} {s : Sched} {i p m : Nat}
    (hinv : UpInv s0 t s i) (hi0 : i ≠ 0)
    (hp : parent4 i = p) (hm : s.arr p = m)
    (hlt : (s.store t).when < (s.store m).when) :
    UpInv s0 t (setIndex (setArr s i m) m (i : Int)) p := by
  have hpos : 0 < i := Nat.pos_of_ne_zero hi0
  have hplt : p < i := hp ▸ parent4_lt hpos
  have hpi : p ≠ i := Nat.ne_of_lt hplt
  have hps : p < s.size := lt_trans hplt hinv.hi
  have hmt : m ≠ t := hm ▸ hinv.a2 p hps hpi
  have harr1 : ∀ j, j ≠ i → (setIndex (setArr s i m) m (i : Int)).arr j = s.arr j := by
    intro j hj
    simp [setArr_arr_ne _ _ _ hj]
  have harr1i : (setIndex (setArr s i m) m (i : Int)).arr i = m := by simp
  have hwhen1 : ∀ x, ((setIndex (setArr s i m) m (i : Int)).store x).when =
      (s.store x).when := by
    intro x; simp
  have hper1 : ∀ x, ((setIndex (setArr s i m) m (i : Int)).store x).period =
      (s.store x).period := by
    intro x; simp
  have hstore1 : ∀ x, x ≠ m →
      (setIndex (setArr s i m) m (i : Int)).store x = s.store x := by
    intro x hx
    rw [setIndex_store_ne _ _ _ hx]
    rfl
  have hsize1 : (setIndex (setArr s i m) m (i : Int)).size = s.size := by simp
  have hinj : ∀ j, j < s.size → j ≠ i → j ≠ p → s.arr j ≠ m := by
    intro j hj hji hjp he
    have e1 := hinv.a1 j hj hji
    have e2 := hinv.a1 p hps hpi
    rw [hm] at e2
    rw [he] at e1
    rw [e1] at e2
    exact hjp (by exact_mod_cast e2)
  refine ⟨by rw [hsize1]; exact hinv.hsize, by simpa using hinv.hnids,
    by rw [hsize1]; exact hps, ?_, ?_, ?_, ?_, ?_, ?_, ?_, ?_, ?_, ?_⟩
  · -- a1
    intro j hj hjp
    rw [hsize1] at hj
    by_cases hji : j = i
    · subst hji
      rw [harr1i]
      simp
    · rw [harr1 j hji, hstore1 _ (hinj j hj hji hjp)]
      exact hinv.a1 j hj hji
  · -- a2
    intro j hj hjp
    rw [hsize1] at hj
    by_cases hji : j = i
    · subst hji; rw [harr1i]; exact hmt
    · rw [harr1 j hji]; exact hinv.a2 j hj hji
  · -- a3 (vacuous: the new hole holds the stale parent, not t)
    intro h
    rw [harr1 p hpi, hm] at h
    exact absurd h hmt
  · -- h1
    intro j hj hj0 hjne hparne
    rw [hsize1] at hj
    rw [hwhen1, hwhen1]
    by_cases hji : j = i
    · exact absurd (by rw [hji, hp]) hparne
    · by_cases hpj : parent4 j = i
      · rw [hpj, harr1i, harr1 j hji]
        have := hinv.h3 hpos j hj hj0 hpj
        rw [hp, hm] at this
        exact this
      · rw [harr1 _ hpj, harr1 j hji]
        exact hinv.h1 j hj hj0 hji hpj
  · -- h2 (children of the new hole p)
    intro j hj hj0 hparj
    rw [hsize1] at hj
    rw [hwhen1, hwhen1]
    by_cases hji : j = i
    · subst hji
      rw [harr1i]
      exact le_of_lt hlt
    · rw [harr1 j hji]
      have hpne : parent4 j ≠ i := by rw [hparj]; exact hpi
      have he := hinv.h1 j hj hj0 hji hpne
      rw [hparj, hm] at he
      exact le_trans (le_of_lt hlt) he
  · -- h3 (bridge at the new hole p)
    intro hp0 j hj hj0 hparj
    rw [hsize1] at hj
    rw [hwhen1, hwhen1]
    have hppp : parent4 p ≠ i := Nat.ne_of_lt (lt_trans (parent4_lt hp0) hplt)
    have hedgep := hinv.h1 p hps hp0 hpi hppp
    rw [hm] at hedgep
    rw [harr1 _ hppp]
    by_cases hji : j = i
    · subst hji
      rw [harr1i]
      exact hedgep
    · rw [harr1 j hji]
      have hpne : parent4 j ≠ i := by rw [hparj]; exact hpi
      have he := hinv.h1 j hj hj0 hji hpne
      rw [hparj, hm] at he
      exact le_trans hedgep he
  · intro id; rw [hwhen1]; exact hinv.fwhen id
  · intro id; rw [hper1]; exact hinv.fperiod id
  · intro id hmem hnt
    have hidm : id ≠ m := by
      intro he
      apply hmem
      rw [← hinv.fmem id]
      exact ⟨p, hps, by rw [Function.update_noteq hpi, hm, he]⟩
    rw [hstore1 id hidm]
    exact hinv.fstore id hmem hnt
  · -- fmem: the conceptual arrays differ by a transposition of i and p
    intro id
    rw [← hinv.fmem id]
    constructor
    · rintro ⟨j, hj, hje⟩
      rw [hsize1] at hj
      by_cases hjp : j = p
      · subst hjp
        rw [Function.update_same] at hje
        exact ⟨i, hinv.hi, by rw [Function.update_same]; exact hje⟩
      · rw [Function.update_noteq hjp] at hje
        by_cases hji : j = i
        · subst hji
          rw [harr1i] at hje
          exact ⟨p, hps, by rw [Function.update_noteq hpi, hm]; exact hje⟩
        · rw [harr1 j hji] at hje
          exact ⟨j, hj, by rw [Function.update_noteq hji]; exact hje⟩
    · rintro ⟨j, hj, hje⟩
      by_cases hji : j = i
      · subst hji
        rw [Function.update_same] at hje
        exact ⟨p, by rw [hsize1]; exact hps,
          by rw [Function.update_same]; exact hje⟩
      · rw [Function.update_noteq hji] at hje
        by_cases hjp : j = p
        · subst hjp
          refine ⟨i, by rw [hsize1]; exact hinv.hi, ?_⟩
          rw [Function.update_noteq (Ne.symm hpi), harr1i]
          rw [hm] at hje
          exact hje
        · exact ⟨j, by rw [hsize1]; exact hj,
            by rw [Function.update_noteq hjp, harr1 j hji]; exact hje⟩

end Sched

namespace Sched

theorem siftupLoop_spec (s0 : Sched) (t : Nat) :
    ∀ fuel i s, i ≤ fuel → UpInv s0 t s i →
      UpInv s0 t (siftupLoop t fuel s i).1 (siftupLoop t fuel s i).2 ∧
      HeapFine s0 t (((siftupLoop t fuel s i).1).place t (siftupLoop t fuel s i).2) := by
  intro fuel
  induction fuel with
  | zero =>
    intro i s hfi hinv
    have hi0 : i = 0 := Nat.le_zero.mp hfi
    subst hi0
    simp only [siftupLoop]
    exact ⟨hinv, upinv_place hinv (fun h => absurd h (lt_irrefl 0))⟩
  | succ fuel ih =>
    intro i s hfi hinv
    by_cases hi0 : i = 0
    · subst hi0
      simp only [siftupLoop, if_pos rfl]
      exact ⟨hinv, upinv_place hinv (fun h => absurd h (lt_irrefl 0))⟩
    · have hunf : siftupLoop t (fuel + 1) s i =
          if (s.store t).when < (s.store (s.arr (parent4 i))).when then
            siftupLoop t fuel
              (setIndex (setArr s i (s.arr (parent4 i))) (s.arr (parent4 i)) (i : Int))
              (parent4 i)
          else (s, i) := by
        simp only [siftupLoop, if_neg hi0]
      by_cases hlt : (s.store t).when < (s.store (s.arr (parent4 i))).when
      · rw [hunf, if_pos hlt]
        have hple : parent4 i ≤ fuel :=
          Nat.le_of_lt_succ (lt_of_lt_of_le (parent4_lt (Nat.pos_of_ne_zero hi0)) hfi)
        exact ih (parent4 i) _ hple (upinv_move hinv hi0 rfl rfl hlt)
      · rw [hunf, if_neg hlt]
        exact ⟨hinv, upinv_place hinv (fun _ => le_of_not_lt hlt)⟩

theorem sched_ext {a b : Sched} (hst : a.store = b.store) (har : a.arr = b.arr)
    (hs : a.size = b.size) (hn : a.nids = b.nids) : a = b := by
  cases a; cases b; simp_all

theorem place_self (s : Sched) (t i : Nat) (h1 : s.arr i = t)
    (h2 : (s.store t).index = (i : Int)) : s.place t i = s := by
  apply sched_ext
  · show Function.update s.store t { s.store t with index := (i : Int) } = s.store
    have hrec : { s.store t with index := (i : Int) } = s.store t := by
      rw [← h2]
    rw [hrec]
    exact Function.update_eq_self t s.store
  · show Function.update s.arr i t = s.arr
    rw [← h1]
    exact Function.update_eq_self i s.arr
  · rfl
  · rfl

theorem siftup_spec (s : Sched) (t : Nat) (i0 : Nat)
    (hidx : (s.store t).index = (i0 : Int))
    (hinv : UpInv s t s i0) : HeapFine s t (s.siftup t) := by
  have htoNat : (s.store t).index.toNat = i0 := by rw [hidx]; simp
  obtain ⟨hinv', hfine⟩ := siftupLoop_spec s t i0 i0 s (le_refl i0) hinv
  unfold siftup
  rw [htoNat]
  by_cases harr' : (siftupLoop t i0 s i0).1.arr (siftupLoop t i0 s i0).2 ≠ t
  · rw [if_pos harr']
    exact hfine
  · rw [if_neg harr']
    push_neg at harr'
    rw [← place_self (siftupLoop t i0 s i0).1 t (siftupLoop t i0 s i0).2 harr'
      (hinv'.a3 harr')]
    exact hfine

end Sched

namespace Sched

theorem insert_spec (s : Sched) (t : Nat) (hIdx : IdxOK s) (hHp : HeapOK s)
    (hmem : ¬ s.memQ t) :
    (s.insert t).size = s.size + 1 ∧ (s.insert t).nids = s.nids ∧
    IdxOK (s.insert t) ∧ HeapOK (s.insert t) ∧
    (∀ id, (s.insert t).memQ id ↔ s.memQ id ∨ id = t) ∧
    (∀ id, ((s.insert t).store id).when = (s.store id).when) ∧
    (∀ id, ((s.insert t).store id).period = (s.store id).period) ∧
    (∀ id, ¬ s.memQ id → id ≠ t → (s.insert t).store id = s.store id) := by
  have harrt : ∀ j, j < s.size → s.arr j ≠ t := by
    intro j hj he
    exact hmem ⟨j, hj, he⟩
  -- the appended state
  set s2 : Sched :=
    { (s.setIndex t (s.size : Int)) with
      arr := Function.update (s.setIndex t (s.size : Int)).arr
        (s.setIndex t (s.size : Int)).size t,
      size := (s.setIndex t (s.size : Int)).size + 1 } with hs2
  have h2size : s2.size = s.size + 1 := by rw [hs2]; simp
  have h2nids : s2.nids = s.nids := by rw [hs2]; simp
  have h2arrn : s2.arr s.size = t := by rw [hs2]; simp
  have h2arr : ∀ j, j ≠ s.size → s2.arr j = s.arr j := by
    intro j hj
    rw [hs2]
    simp only [setIndex_size]
    rw [Function.update_noteq hj]
    rfl
  have h2storet : s2.store t = { s.store t with index := (s.size : Int) } := by
    rw [hs2]; simp
  have h2store : ∀ x, x ≠ t → s2.store x = s.store x := by
    intro x hx
    rw [hs2]
    show (s.setIndex t (s.size : Int)).store x = s.store x
    exact setIndex_store_ne _ _ _ hx
  have h2when : ∀ x, (s2.store x).when = (s.store x).when := by
    intro x
    by_cases hx : x = t
    · subst hx; rw [h2storet]
    · rw [h2store x hx]
  have h2per : ∀ x, (s2.store x).period = (s.store x).period := by
    intro x
    by_cases hx : x = t
    · subst hx; rw [h2storet]
    · rw [h2store x hx]
  have h2memQ : ∀ id, s2.memQ id ↔ s.memQ id ∨ id = t := by
    intro id
    constructor
    · rintro ⟨j, hj, hje⟩
      rw [h2size] at hj
      by_cases hjn : j = s.size
      · subst hjn
        rw [h2arrn] at hje
        exact Or.inr hje.symm
      · rw [h2arr j hjn] at hje
        exact Or.inl ⟨j, by omega, hje⟩
    · rintro (⟨j, hj, hje⟩ | rfl)
      · exact ⟨j, by rw [h2size]; omega, by rw [h2arr j (by omega)]; exact hje⟩
      · exact ⟨s.size, by rw [h2size]; omega, h2arrn⟩
  have hidx2 : (s2.store t).index = (s.size : Int) := by rw [h2storet]
  have hinv : UpInv s2 t s2 s.size := by
    refine ⟨rfl, rfl, by rw [h2size]; omega, ?_, ?_, fun _ => hidx2, ?_, ?_, ?_,
      fun _ => rfl, fun _ => rfl, fun _ _ _ => rfl, ?_⟩
    · intro j hj hjn
      rw [h2size] at hj
      have hjlt : j < s.size := by omega
      rw [h2arr j hjn, h2store _ (harrt j hjlt)]
      exact hIdx j hjlt
    · intro j hj hjn
      rw [h2size] at hj
      rw [h2arr j hjn]
      exact harrt j (by omega)
    · intro j hj hj0 hjn hpn
      rw [h2size] at hj
      have hjlt : j < s.size := by omega
      have hplt : parent4 j < s.size := lt_trans (parent4_lt hj0) hjlt
      rw [h2when, h2when, h2arr j hjn, h2arr _ hpn]
      exact hHp j hjlt hj0
    · intro j hj hj0 hpn
      rw [h2size] at hj
      exfalso
      unfold parent4 at hpn
      omega
    · intro h0 j hj hj0 hpn
      rw [h2size] at hj
      exfalso
      unfold parent4 at hpn
      omega
    · intro id
      have : Function.update s2.arr s.size t = s2.arr := by
        rw [← h2arrn]
        exact Function.update_eq_self s.size s2.arr
      rw [this]
      exact Iff.rfl
  have hfine : HeapFine s2 t (s.insert t) := by
    have : s.insert t = s2.siftup t := rfl
    rw [this]
    exact siftup_spec s2 t s.size hidx2 hinv
  refine ⟨by rw [hfine.hsize, h2size], by rw [hfine.hnids, h2nids],
    hfine.idx, hfine.hp, ?_, ?_, ?_, ?_⟩
  · intro id
    rw [hfine.fmem id, h2memQ id]
  · intro id
    rw [hfine.fwhen id, h2when id]
  · intro id
    rw [hfine.fperiod id, h2per id]
  · intro id hm hnt
    have hm2 : ¬ s2.memQ id := by
      rw [h2memQ id]
      rintro (h | h)
      · exact hm h
      · exact hnt h
    rw [hfine.fstore id hm2 hnt, h2store id hnt]

end Sched

namespace Sched

theorem pickMin_snd_eq (s : Sched) :
    ∀ js (acc : Nat × Int), acc.2 = (s.store (s.arr acc.1)).when →
      (pickMin s js acc).2 = (s.store (s.arr (pickMin s js acc).1)).when := by
  intro js
  induction js with
  | nil => intro acc h; exact h
  | cons j js ih =>
    intro acc h
    unfold pickMin
    split
    · exact ih _ rfl
    · exact ih _ h

theorem pickMin_fst_mem (s : Sched) :
    ∀ js (acc : Nat × Int), (pickMin s js acc).1 = acc.1 ∨ (pickMin s js acc).1 ∈ js := by
  intro js
  induction js with
  | nil => intro acc; exact Or.inl rfl
  | cons j js ih =>
    intro acc
    unfold pickMin
    split
    · rcases ih (j, (s.store (s.arr j)).when) with h | h
      · exact Or.inr (by rw [h]; exact List.mem_cons_self j js)
      · exact Or.inr (List.mem_cons_of_mem j h)
    · rcases ih acc with h | h
      · exact Or.inl h
      · exact Or.inr (List.mem_cons_of_mem j h)

theorem pickMin_le_acc (s : Sched) :
    ∀ js (acc : Nat × Int), (pickMin s js acc).2 ≤ acc.2 := by
  intro js
  induction js with
  | nil => intro acc; exact le_refl _
  | cons j js ih =>
    intro acc
    unfold pickMin
    split
    · rename_i h
      exact le_trans (ih _) (le_of_lt h)
    · exact ih acc

theorem pickMin_le_mem (s : Sched) :
    ∀ js (acc : Nat × Int) j, j ∈ js →
      (pickMin s js acc).2 ≤ (s.store (s.arr j)).when := by
  intro js
  induction js with
  | nil => intro acc j h; exact absurd h (List.not_mem_nil j)
  | cons k js ih =>
    intro acc j hj
    rcases List.mem_cons.mp hj with rfl | hj
    · unfold pickMin
      split
      · exact pickMin_le_acc s js _
      · rename_i h
        exact le_trans (pickMin_le_acc s js acc) (le_of_not_lt h)
    · unfold pickMin
      split
      · exact ih _ j hj
      · exact ih _ j hj

theorem parent4_eq_iff {j i : Nat} (hj : 0 < j) :
    parent4 j = i ↔ 4 * i + 1 ≤ j ∧ j ≤ 4 * i + 4 := by
  unfold parent4; omega

/-- Loop invariant of `siftdown` minus the upward edge of the hole (which
does not hold when `fix` enters `siftdown` after an arbitrary key
change). -/
structure DownPre (s0 : Sched) (t : Nat) (s : Sched) (i : Nat) : Prop where
  hsize : s.size = s0.size
  hnids : s.nids = s0.nids
  hi : i < s.size
  a1 : ∀ j, j < s.size → j ≠ i → (s.store (s.arr j)).index = (j : Int)
  a2 : ∀ j, j < s.size → j ≠ i → s.arr j ≠ t
  a3 : s.arr i = t → (s.store t).index = (i : Int)
  h1 : ∀ j, j < s.size → 0 < j → j ≠ i → parent4 j ≠ i →
      (s.store (s.arr (parent4 j))).when ≤ (s.store (s.arr j)).when
  h3d : 0 < i → ∀ j, j < s.size → 0 < j → parent4 j = i →
      (s.store (s.arr (parent4 i))).when ≤ (s.store (s.arr j)).when
  fwhen : ∀ id, (s.store id).when = (s0.store id).when
  fperiod : ∀ id, (s.store id).period = (s0.store id).period
  fstore : ∀ id, ¬ s0.memQ id → id ≠ t → s.store id = s0.store id
  fmem : ∀ id, (∃ j, j < s.size ∧ Function.update s.arr i t j = id) ↔ s0.memQ id

/-- Full loop invariant of `siftdown` (from the second iteration on). -/
structure DownInv (s0 : Sched) (t : Nat) (s : Sched) (i : Nat)
    extends DownPre s0 t s i : Prop where
  h2d : 0 < i → (s.store (s.arr (parent4 i))).when ≤ (s.store t).when

/-- A `DownPre` whose hole also dominates all its children is an `UpInv`. -/
theorem downpre_upinv {s0 : Sched} {t : Nat} {s : Sched} {i : Nat}
    (d : DownPre s0 t s i)
    (hch : ∀ j, j < s.size → 0 < j → parent4 j = i →
      (s.store t).when ≤ (s.store (s.arr j)).when) : UpInv s0 t s i :=
  ⟨d.hsize, d.hnids, d.hi, d.a1, d.a2, d.a3, d.h1, hch, d.h3d,
   d.fwhen, d.fperiod, d.fstore, d.fmem⟩

theorem downpre_move {s0 : Sched} {t : Nat} {s : Sched} {i cc m : Nat} {w : Int}
    (hinv : DownPre s0 t s i)
    (hccl : 4 * i + 1 ≤ cc) (hccu : cc ≤ min (4 * i + 1 + 3) (s.size - 1))
    (hm : s.arr cc = m)
    (hw : w = (s.store m).when)
    (hmin : ∀ j, 4 * i + 1 ≤ j → j ≤ min (4 * i + 1 + 3) (s.size - 1) →
      w ≤ (s.store (s.arr j)).when)
    (hlt : w < (s.store t).when) :
    DownInv s0 t (setIndex (setArr s i m) m (i : Int)) cc := by
  have hsz : 0 < s.size := lt_of_le_of_lt (Nat.zero_le i) hinv.hi
  have hcs : cc < s.size := by omega
  have hic : i < cc := by omega
  have hci : cc ≠ i := by omega
  have hcc0 : 0 < cc := by omega
  have hpcc : parent4 cc = i := (parent4_eq_iff hcc0).mpr (by omega)
  have hmt : m ≠ t := hm ▸ hinv.a2 cc hcs hci
  have harr1 : ∀ j, j ≠ i → (setIndex (setArr s i m) m (i : Int)).arr j = s.arr j := by
    intro j hj
    simp [setArr_arr_ne _ _ _ hj]
  have harr1i : (setIndex (setArr s i m) m (i : Int)).arr i = m := by simp
  have hwhen1 : ∀ x, ((setIndex (setArr s i m) m (i : Int)).store x).when =
      (s.store x).when := by intro x; simp
  have hper1 : ∀ x, ((setIndex (setArr s i m) m (i : Int)).store x).period =
      (s.store x).period := by intro x; simp
  have hstore1 : ∀ x, x ≠ m →
      (setIndex (setArr s i m) m (i : Int)).store x = s.store x := by
    intro x hx
    rw [setIndex_store_ne _ _ _ hx]
    rfl
  have hsize1 : (setIndex (setArr s i m) m (i : Int)).size = s.size := by simp
  have hinj : ∀ j, j < s.size → j ≠ i → j ≠ cc → s.arr j ≠ m := by
    intro j hj hji hjc he
    have e1 := hinv.a1 j hj hji
    have e2 := hinv.a1 cc hcs hci
    rw [hm] at e2
    rw [he] at e1
    rw [e1] at e2
    exact hjc (by exact_mod_cast e2)
  have hchild_min : ∀ j, j < s.size → 0 < j → parent4 j = i →
      w ≤ (s.store (s.arr j)).when := by
    intro j hj hj0 hpj
    have := (parent4_eq_iff hj0).mp hpj
    exact hmin j (by omega) (by omega)
  refine ⟨⟨by rw [hsize1]; exact hinv.hsize, by simpa using hinv.hnids,
    by rw [hsize1]; exact hcs, ?_, ?_, ?_, ?_, ?_, ?_, ?_, ?_, ?_⟩, ?_⟩
  · -- a1
    intro j hj hjc
    rw [hsize1] at hj
    by_cases hji : j = i
    · subst hji
      rw [harr1i]
      simp
    · rw [harr1 j hji, hstore1 _ (hinj j hj hji hjc)]
      exact hinv.a1 j hj hji
  · -- a2
    intro j hj hjc
    rw [hsize1] at hj
    by_cases hji : j = i
    · subst hji; rw [harr1i]; exact hmt
    · rw [harr1 j hji]; exact hinv.a2 j hj hji
  · -- a3 (vacuous)
    intro h
    rw [harr1 cc hci, hm] at h
    exact absurd h hmt
  · -- h1
    intro j hj hj0 hjne hparne
    rw [hsize1] at hj
    rw [hwhen1, hwhen1]
    by_cases hji : j = i
    · subst hji
      rw [harr1i, harr1 _ (Nat.ne_of_lt (parent4_lt hj0))]
      have := hinv.h3d hj0 cc hcs hcc0 hpcc
      rw [hm] at this
      exact this
    · by_cases hpj : parent4 j = i
      · rw [hpj, harr1i, harr1 j hji]
        rw [← hw]
        exact hchild_min j hj hj0 hpj
      · rw [harr1 _ hpj, harr1 j hji]
        exact hinv.h1 j hj hj0 hji hpj
  · -- h3d at the new hole cc
    intro _ j hj hj0 hpj
    rw [hsize1] at hj
    rw [hwhen1, hwhen1, hpcc, harr1i]
    have hjcc : j ≠ cc := by
      intro he
      rw [he] at hpj
      have := (parent4_eq_iff hj0).mp (he ▸ hpj)
      omega
    have hji : j ≠ i := by
      have := (parent4_eq_iff hj0).mp hpj
      omega
    rw [harr1 j hji]
    have hpne : parent4 j ≠ i := by rw [hpj]; omega
    have he := hinv.h1 j hj hj0 hji hpne
    rw [hpj, hm] at he
    exact he
  · intro id; rw [hwhen1]; exact hinv.fwhen id
  · intro id; rw [hper1]; exact hinv.fperiod id
  · intro id hmem hnt
    have hidm : id ≠ m := by
      intro he
      apply hmem
      rw [← hinv.fmem id]
      exact ⟨cc, hcs, by rw [Function.update_noteq hci, hm, he]⟩
    rw [hstore1 id hidm]
    exact hinv.fstore id hmem hnt
  · -- fmem: transposition of i and cc
    intro id
    rw [← hinv.fmem id]
    constructor
    · rintro ⟨j, hj, hje⟩
      rw [hsize1] at hj
      by_cases hjc : j = cc
      · subst hjc
        rw [Function.update_same] at hje
        exact ⟨i, hinv.hi, by rw [Function.update_same]; exact hje⟩
      · rw [Function.update_noteq hjc] at hje
        by_cases hji : j = i
        · subst hji
          rw [harr1i] at hje
          exact ⟨cc, hcs, by rw [Function.update_noteq hci, hm]; exact hje⟩
        · rw [harr1 j hji] at hje
          exact ⟨j, hj, by rw [Function.update_noteq hji]; exact hje⟩
    · rintro ⟨j, hj, hje⟩
      by_cases hji : j = i
      · subst hji
        rw [Function.update_same] at hje
        exact ⟨cc, by rw [hsize1]; exact hcs,
          by rw [Function.update_same]; exact hje⟩
      · rw [Function.update_noteq hji] at hje
        by_cases hjc : j = cc
        · subst hjc
          refine ⟨i, by rw [hsize1]; exact hinv.hi, ?_⟩
          rw [Function.update_noteq (Ne.symm hci), harr1i]
          rw [hm] at hje
          exact hje
        · exact ⟨j, by rw [hsize1]; exact hj,
            by rw [Function.update_noteq hjc, harr1 j hji]; exact hje⟩
  · -- h2d at the new hole cc
    intro _
    rw [hpcc, hwhen1, hwhen1, harr1i]
    rw [hw] at hlt
    exact le_of_lt hlt

end Sched

namespace Sched

theorem siftdownLoop_spec (s0 : Sched) (t : Nat) (n : Nat) :
    ∀ fuel i s, s.size - i ≤ fuel → n = s.size → DownInv s0 t s i →
      DownInv s0 t (siftdownLoop t n fuel s i).1 (siftdownLoop t n fuel s i).2 ∧
      i ≤ (siftdownLoop t n fuel s i).2 ∧
      HeapFine s0 t (((siftdownLoop t n fuel s i).1).place t
        (siftdownLoop t n fuel s i).2) := by
  intro fuel
  induction fuel with
  | zero =>
    intro i s hfi hn hinv
    exact absurd hinv.hi (by omega)
  | succ fuel ih =>
    intro i s hfi hn hinv
    subst hn
    by_cases hcn : s.size ≤ 4 * i + 1
    · have hunf : siftdownLoop t s.size (fuel + 1) s i = (s, i) := by
        simp only [siftdownLoop, if_pos hcn]
      rw [hunf]
      have hch : ∀ j, j < s.size → 0 < j → parent4 j = i →
          (s.store t).when ≤ (s.store (s.arr j)).when := by
        intro j hj hj0 hpj
        have := (parent4_eq_iff hj0).mp hpj
        omega
      exact ⟨hinv, le_refl i,
        upinv_place (downpre_upinv hinv.toDownPre hch) hinv.h2d⟩
    · push_neg at hcn
      have hc4c : 4 * i + 1 ≤ min (4 * i + 1 + 3) (s.size - 1) := by
        rcases Nat.le_total (4 * i + 1 + 3) (s.size - 1) with h | h
        · rw [min_eq_left h]; omega
        · rw [min_eq_right h]; omega
      have hier :
          (pickMin s (List.range' (4 * i + 1 + 1)
              (min (4 * i + 1 + 3) (s.size - 1) - (4 * i + 1)))
            (4 * i + 1, (s.store (s.arr (4 * i + 1))).when)).2 =
          (s.store (s.arr (pickMin s (List.range' (4 * i + 1 + 1)
              (min (4 * i + 1 + 3) (s.size - 1) - (4 * i + 1)))
            (4 * i + 1, (s.store (s.arr (4 * i + 1))).when)).1)).when :=
        pickMin_snd_eq s _ _ rfl
      have hccb :
          4 * i + 1 ≤ (pickMin s (List.range' (4 * i + 1 + 1)
              (min (4 * i + 1 + 3) (s.size - 1) - (4 * i + 1)))
            (4 * i + 1, (s.store (s.arr (4 * i + 1))).when)).1 ∧
          (pickMin s (List.range' (4 * i + 1 + 1)
              (min (4 * i + 1 + 3) (s.size - 1) - (4 * i + 1)))
            (4 * i + 1, (s.store (s.arr (4 * i + 1))).when)).1 ≤
            min (4 * i + 1 + 3) (s.size - 1) := by
        rcases pickMin_fst_mem s (List.range' (4 * i + 1 + 1)
            (min (4 * i + 1 + 3) (s.size - 1) - (4 * i + 1)))
          (4 * i + 1, (s.store (s.arr (4 * i + 1))).when) with h | h
        · rw [h]
          exact ⟨le_refl _, hc4c⟩
        · have := List.mem_range'_1.mp h
          omega
      have hmin : ∀ j, 4 * i + 1 ≤ j → j ≤ min (4 * i + 1 + 3) (s.size - 1) →
          (pickMin s (List.range' (4 * i + 1 + 1)
              (min (4 * i + 1 + 3) (s.size - 1) - (4 * i + 1)))
            (4 * i + 1, (s.store (s.arr (4 * i + 1))).when)).2 ≤
          (s.store (s.arr j)).when := by
        intro j hjl hju
        by_cases hjc : j = 4 * i + 1
        · subst hjc
          exact pickMin_le_acc s _ _
        · exact pickMin_le_mem s _ _ j (List.mem_range'_1.mpr ⟨by omega, by omega⟩)
      by_cases hlt :
          (pickMin s (List.range' (4 * i + 1 + 1)
              (min (4 * i + 1 + 3) (s.size - 1) - (4 * i + 1)))
            (4 * i + 1, (s.store (s.arr (4 * i + 1))).when)).2 < (s.store t).when
      · have hunf : siftdownLoop t s.size (fuel + 1) s i =
            siftdownLoop t s.size fuel
              (setIndex (setArr s i (s.arr (pickMin s (List.range' (4 * i + 1 + 1)
                  (min (4 * i + 1 + 3) (s.size - 1) - (4 * i + 1)))
                (4 * i + 1, (s.store (s.arr (4 * i + 1))).when)).1))
                (s.arr (pickMin s (List.range' (4 * i + 1 + 1)
                  (min (4 * i + 1 + 3) (s.size - 1) - (4 * i + 1)))
                (4 * i + 1, (s.store (s.arr (4 * i + 1))).when)).1) (i : Int))
              (pickMin s (List.range' (4 * i + 1 + 1)
                  (min (4 * i + 1 + 3) (s.size - 1) - (4 * i + 1)))
                (4 * i + 1, (s.store (s.arr (4 * i + 1))).when)).1 := by
          simp only [siftdownLoop, if_neg (not_le.mpr hcn), if_pos hlt]
        rw [hunf]
        have hinv' := downpre_move hinv.toDownPre hccb.1 hccb.2 rfl hier hmin hlt
        have hle : i < (pickMin s (List.range' (4 * i + 1 + 1)
            (min (4 * i + 1 + 3) (s.size - 1) - (4 * i + 1)))
          (4 * i + 1, (s.store (s.arr (4 * i + 1))).when)).1 := by omega
        have hres := ih _ _ (by simp only [setIndex_size, setArr_size]; omega)
          (by simp) hinv'
        exact ⟨hres.1, by omega, hres.2.2⟩
      · have hunf : siftdownLoop t s.size (fuel + 1) s i = (s, i) := by
          simp only [siftdownLoop, if_neg (not_le.mpr hcn), if_neg hlt]
        rw [hunf]
        have hch : ∀ j, j < s.size → 0 < j → parent4 j = i →
            (s.store t).when ≤ (s.store (s.arr j)).when := by
          intro j hj hj0 hpj
          have hb := (parent4_eq_iff hj0).mp hpj
          have hj4 : j ≤ min (4 * i + 1 + 3) (s.size - 1) := by
            rcases Nat.le_total (4 * i + 1 + 3) (s.size - 1) with h | h
            · rw [min_eq_left h]; omega
            · rw [min_eq_right h]; omega
          have := hmin j (by omega) hj4
          omega
        exact ⟨hinv, le_refl i,
          upinv_place (downpre_upinv hinv.toDownPre hch) hinv.h2d⟩

end Sched

namespace Sched

/-- Precondition of `fix`: `t` sits at position `i0` of an array that is a
heap except at `i0` — every edge not involving `i0` holds, and the
grandparent bridge across `i0` holds.  `t.when` itself is arbitrary
(it may just have been rewritten). -/
structure FixPre (s : Sched) (t : Nat) (i0 : Nat) : Prop where
  hi : i0 < s.size
  harr : s.arr i0 = t
  hidx : (s.store t).index = (i0 : Int)
  a1 : ∀ j, j < s.size → j ≠ i0 → (s.store (s.arr j)).index = (j : Int)
  a2 : ∀ j, j < s.size → j ≠ i0 → s.arr j ≠ t
  h1 : ∀ j, j < s.size → 0 < j → j ≠ i0 → parent4 j ≠ i0 →
      (s.store (s.arr (parent4 j))).when ≤ (s.store (s.arr j)).when
  h3 : 0 < i0 → ∀ j, j < s.size → 0 < j → parent4 j = i0 →
      (s.store (s.arr (parent4 i0))).when ≤ (s.store (s.arr j)).when

theorem fixpre_fmem {s : Sched} {t : Nat} {i0 : Nat} (pre : FixPre s t i0) :
    ∀ id, (∃ j, j < s.size ∧ Function.update s.arr i0 t j = id) ↔ s.memQ id := by
  intro id
  have : Function.update s.arr i0 t = s.arr := by
    rw [← pre.harr]
    exact Function.update_eq_self i0 s.arr
  rw [this]
  exact Iff.rfl

theorem fixpre_downpre {s : Sched} {t : Nat} {i0 : Nat} (pre : FixPre s t i0) :
    DownPre s t s i0 :=
  ⟨rfl, rfl, pre.hi, pre.a1, pre.a2, fun _ => pre.hidx, pre.h1, pre.h3,
   fun _ => rfl, fun _ => rfl, fun _ _ _ => rfl, fixpre_fmem pre⟩

theorem fixpre_upinv {s : Sched} {t : Nat} {i0 : Nat} (pre : FixPre s t i0)
    (hch : ∀ j, j < s.size → 0 < j → parent4 j = i0 →
      (s.store t).when ≤ (s.store (s.arr j)).when) : UpInv s t s i0 :=
  ⟨rfl, rfl, pre.hi, pre.a1, pre.a2, fun _ => pre.hidx, pre.h1, hch, pre.h3,
   fun _ => rfl, fun _ => rfl, fun _ _ _ => rfl, fixpre_fmem pre⟩

theorem siftdownLoop_entry {s : Sched} {t : Nat} {i0 : Nat} (pre : FixPre s t i0) :
    ∀ fuel, s.size - i0 ≤ fuel → 1 ≤ fuel →
      (siftdownLoop t s.size fuel s i0 = (s, i0) ∧
        (∀ j, j < s.size → 0 < j → parent4 j = i0 →
          (s.store t).when ≤ (s.store (s.arr j)).when)) ∨
      (DownInv s t (siftdownLoop t s.size fuel s i0).1
          (siftdownLoop t s.size fuel s i0).2 ∧
        i0 < (siftdownLoop t s.size fuel s i0).2 ∧
        HeapFine s t (((siftdownLoop t s.size fuel s i0).1).place t
          (siftdownLoop t s.size fuel s i0).2)) := by
  intro fuel hfe hf1
  obtain ⟨f, rfl⟩ : ∃ f, fuel = f + 1 := ⟨fuel - 1, by omega⟩
  by_cases hcn : s.size ≤ 4 * i0 + 1
  · left
    constructor
    · simp only [siftdownLoop, if_pos hcn]
    · intro j hj hj0 hpj
      have := (parent4_eq_iff hj0).mp hpj
      omega
  · push_neg at hcn
    have hc4c : 4 * i0 + 1 ≤ min (4 * i0 + 1 + 3) (s.size - 1) := by omega
    have hier :
        (pickMin s (List.range' (4 * i0 + 1 + 1)
            (min (4 * i0 + 1 + 3) (s.size - 1) - (4 * i0 + 1)))
          (4 * i0 + 1, (s.store (s.arr (4 * i0 + 1))).when)).2 =
        (s.store (s.arr (pickMin s (List.range' (4 * i0 + 1 + 1)
            (min (4 * i0 + 1 + 3) (s.size - 1) - (4 * i0 + 1)))
          (4 * i0 + 1, (s.store (s.arr (4 * i0 + 1))).when)).1)).when :=
      pickMin_snd_eq s _ _ rfl
    have hccb :
        4 * i0 + 1 ≤ (pickMin s (List.range' (4 * i0 + 1 + 1)
            (min (4 * i0 + 1 + 3) (s.size - 1) - (4 * i0 + 1)))
          (4 * i0 + 1, (s.store (s.arr (4 * i0 + 1))).when)).1 ∧
        (pickMin s (List.range' (4 * i0 + 1 + 1)
            (min (4 * i0 + 1 + 3) (s.size - 1) - (4 * i0 + 1)))
          (4 * i0 + 1, (s.store (s.arr (4 * i0 + 1))).when)).1 ≤
          min (4 * i0 + 1 + 3) (s.size - 1) := by
      rcases pickMin_fst_mem s (List.range' (4 * i0 + 1 + 1)
          (min (4 * i0 + 1 + 3) (s.size - 1) - (4 * i0 + 1)))
        (4 * i0 + 1, (s.store (s.arr (4 * i0 + 1))).when) with h | h
      · rw [h]
        exact ⟨le_refl _, hc4c⟩
      · have := List.mem_range'_1.mp h
        omega
    have hmin : ∀ j, 4 * i0 + 1 ≤ j → j ≤ min (4 * i0 + 1 + 3) (s.size - 1) →
        (pickMin s (List.range' (4 * i0 + 1 + 1)
            (min (4 * i0 + 1 + 3) (s.size - 1) - (4 * i0 + 1)))
          (4 * i0 + 1, (s.store (s.arr (4 * i0 + 1))).when)).2 ≤
        (s.store (s.arr j)).when := by
      intro j hjl hju
      by_cases hjc : j = 4 * i0 + 1
      · subst hjc
        exact pickMin_le_acc s _ _
      · exact pickMin_le_mem s _ _ j (List.mem_range'_1.mpr ⟨by omega, by omega⟩)
    by_cases hlt :
        (pickMin s (List.range' (4 * i0 + 1 + 1)
            (min (4 * i0 + 1 + 3) (s.size - 1) - (4 * i0 + 1)))
          (4 * i0 + 1, (s.store (s.arr (4 * i0 + 1))).when)).2 < (s.store t).when
    · right
      have hunf : siftdownLoop t s.size (f + 1) s i0 =
          siftdownLoop t s.size f
            (setIndex (setArr s i0 (s.arr (pickMin s (List.range' (4 * i0 + 1 + 1)
                (min (4 * i0 + 1 + 3) (s.size - 1) - (4 * i0 + 1)))
              (4 * i0 + 1, (s.store (s.arr (4 * i0 + 1))).when)).1))
              (s.arr (pickMin s (List.range' (4 * i0 + 1 + 1)
                (min (4 * i0 + 1 + 3) (s.size - 1) - (4 * i0 + 1)))
              (4 * i0 + 1, (s.store (s.arr (4 * i0 + 1))).when)).1) (i0 : Int))
            (pickMin s (List.range' (4 * i0 + 1 + 1)
                (min (4 * i0 + 1 + 3) (s.size - 1) - (4 * i0 + 1)))
              (4 * i0 + 1, (s.store (s.arr (4 * i0 + 1))).when)).1 := by
        simp only [siftdownLoop, if_neg (not_le.mpr hcn), if_pos hlt]
      rw [hunf]
      have hinv' := downpre_move (fixpre_downpre pre) hccb.1 hccb.2 rfl hier hmin hlt
      have hres := siftdownLoop_spec s t s.size f _ _
        (by simp only [setIndex_size, setArr_size]; omega) (by simp) hinv'
      exact ⟨hres.1, by omega, hres.2.2⟩
    · left
      constructor
      · simp only [siftdownLoop, if_neg (not_le.mpr hcn), if_neg hlt]
      · intro j hj hj0 hpj
        have hb := (parent4_eq_iff hj0).mp hpj
        have hj4 : j ≤ min (4 * i0 + 1 + 3) (s.size - 1) := by omega
        have := hmin j (by omega) hj4
        omega

theorem fix_spec {s : Sched} {t : Nat} {i0 : Nat} (pre : FixPre s t i0) :
    HeapFine s t (s.fix t) := by
  have htoNat : (s.store t).index.toNat = i0 := by rw [pre.hidx]; simp
  rcases siftdownLoop_entry pre s.size (by omega) (by have := pre.hi; omega)
    with ⟨heq, hch⟩ | ⟨hinv, hgt, hfine⟩
  · -- the loop did not move: fix falls through to siftup
    have hsd : s.siftdown t = s := by
      show (if (siftdownLoop t s.size s.size s ((s.store t).index.toNat)).1.arr
              (siftdownLoop t s.size s.size s ((s.store t).index.toNat)).2 ≠ t
            then ((siftdownLoop t s.size s.size s
                ((s.store t).index.toNat)).1).place t
              (siftdownLoop t s.size s.size s ((s.store t).index.toNat)).2
            else (siftdownLoop t s.size s.size s ((s.store t).index.toNat)).1) = s
      rw [htoNat, heq]
      simp [pre.harr]
    show HeapFine s t (if ((s.siftdown t).store t).index = (s.store t).index
      then (s.siftdown t).siftup t else s.siftdown t)
    rw [hsd, if_pos rfl]
    exact siftup_spec s t i0 pre.hidx (fixpre_upinv pre hch)
  · -- the loop moved t strictly downward: siftup is skipped
    have hsd : s.siftdown t =
        ((siftdownLoop t s.size s.size s i0).1).place t
          (siftdownLoop t s.size s.size s i0).2 := by
      show (if (siftdownLoop t s.size s.size s ((s.store t).index.toNat)).1.arr
              (siftdownLoop t s.size s.size s ((s.store t).index.toNat)).2 ≠ t
            then ((siftdownLoop t s.size s.size s
                ((s.store t).index.toNat)).1).place t
              (siftdownLoop t s.size s.size s ((s.store t).index.toNat)).2
            else (siftdownLoop t s.size s.size s ((s.store t).index.toNat)).1) = _
      rw [htoNat]
      by_cases harr' : (siftdownLoop t s.size s.size s i0).1.arr
          (siftdownLoop t s.size s.size s i0).2 ≠ t
      · rw [if_pos harr']
      · rw [if_neg harr']
        push_neg at harr'
        exact (place_self _ t _ harr' (hinv.a3 harr')).symm
    have hidxp : ((s.siftdown t).store t).index =
        ((siftdownLoop t s.size s.size s i0).2 : Int) := by
      rw [hsd]
      unfold place
      simp
    show HeapFine s t (if ((s.siftdown t).store t).index = (s.store t).index
      then (s.siftdown t).siftup t else s.siftdown t)
    have hne : ¬ (((siftdownLoop t s.size s.size s i0).2 : Int) = (i0 : Int)) := by
      intro h
      have h2 : (siftdownLoop t s.size s.size s i0).2 = i0 := by exact_mod_cast h
      omega
    rw [hidxp, pre.hidx, if_neg hne, hsd]
    exact hfine

end Sched

namespace Sched

theorem remove_spec (s : Sched) (t : Nat) (hIdx : IdxOK s) (hHp : HeapOK s)
    (hmem : s.memQ t) :
    (s.remove t).size = s.size - 1 ∧ (s.remove t).nids = s.nids ∧
    IdxOK (s.remove t) ∧ HeapOK (s.remove t) ∧
    (∀ id, (s.remove t).memQ id ↔ s.memQ id ∧ id ≠ t) ∧
    (∀ id, ((s.remove t).store id).when = (s.store id).when) ∧
    (∀ id, ((s.remove t).store id).period = (s.store id).period) ∧
    (∀ id, ¬ s.memQ id → (s.remove t).store id = s.store id) ∧
    ((s.remove t).store t).index = -1 := by
  obtain ⟨i, hi, harr, hidx⟩ := index_of_memQ s hIdx hmem
  have htoNat : (s.store t).index.toNat = i := by rw [hidx]; simp
  have harrne : ∀ j, j < s.size → j ≠ i → s.arr j ≠ t := by
    intro j hj hji he
    exact hji (arr_inj s hIdx hj hi (he.trans harr.symm))
  by_cases hin : i = s.size - 1
  · -- t is the last element: plain truncation
    have hrm : s.remove t =
        { s.setIndex t (-1) with size := s.size - 1 } := by
      unfold remove
      simp only [htoNat, hin, ne_eq, not_true_eq_false, if_false, ite_false]
    subst hin
    rw [hrm]
    have hsz : (s.size - 1) < s.size := by omega
    refine ⟨rfl, rfl, ?_, ?_, ?_, by intro id; simp, by intro id; simp, ?_, by simp⟩
    · intro j hj
      simp only at hj
      have hji : j ≠ s.size - 1 := by omega
      show ((s.setIndex t (-1)).store (s.arr j)).index = (j : Int)
      rw [setIndex_store_ne _ _ _ (harrne j (by omega) hji)]
      exact hIdx j (by omega)
    · intro j hj hj0
      simp only at hj
      show ((s.setIndex t (-1)).store (s.arr (parent4 j))).when ≤
        ((s.setIndex t (-1)).store (s.arr j)).when
      rw [setIndex_when, setIndex_when]
      exact hHp j (by omega) hj0
    · intro id
      constructor
      · rintro ⟨j, hj, hje⟩
        simp only at hj
        refine ⟨⟨j, by omega, hje⟩, ?_⟩
        rintro rfl
        exact harrne j (by omega) (by omega) hje
      · rintro ⟨⟨j, hj, hje⟩, hnt⟩
        have hji : j ≠ s.size - 1 := by
          intro he
          exact hnt (by rw [← hje, he, harr])
        exact ⟨j, by simp only; omega, hje⟩
    · intro id hm
      have hnt : id ≠ t := fun he => hm (he ▸ hmem)
      show (s.setIndex t (-1)).store id = s.store id
      exact setIndex_store_ne _ _ _ hnt
  · -- swap the last element into t's slot and fix it
    have hilt : i < s.size - 1 := by
      rcases Nat.lt_or_ge i (s.size - 1) with h | h
      · exact h
      · omega
    have hszpos : 0 < s.size := by omega
    have hmne : s.arr (s.size - 1) ≠ t := harrne _ (by omega) (by omega)
    have hmnei : s.arr (s.size - 1) ≠ s.arr i := by
      intro he
      exact (by omega : s.size - 1 ≠ i) (arr_inj s hIdx (by omega) hi he)
    have hrm : s.remove t =
        { setIndex (fix { setIndex (setArr s i (s.arr (s.size - 1)))
              (s.arr (s.size - 1)) (i : Int) with size := s.size - 1 }
            (s.arr (s.size - 1))) t (-1) with size := s.size - 1 } := by
      unfold remove
      simp only [htoNat, ne_eq, hin, not_false_eq_true, if_true, ite_true]
    -- the truncated, swapped state
    have hpre : FixPre { setIndex (setArr s i (s.arr (s.size - 1)))
        (s.arr (s.size - 1)) (i : Int) with size := s.size - 1 }
        (s.arr (s.size - 1)) i := by
      refine ⟨by simp only; omega, ?_, ?_, ?_, ?_, ?_, ?_⟩
      · show (setIndex (setArr s i (s.arr (s.size - 1)))
          (s.arr (s.size - 1)) (i : Int)).arr i = s.arr (s.size - 1)
        simp
      · show ((setIndex (setArr s i (s.arr (s.size - 1)))
          (s.arr (s.size - 1)) (i : Int)).store (s.arr (s.size - 1))).index = (i : Int)
        simp
      · intro j hj hji
        simp only at hj
        have hjn : j ≠ s.size - 1 := by omega
        have hja : s.arr j ≠ s.arr (s.size - 1) := by
          intro he
          exact hjn (arr_inj s hIdx (by omega) (by omega) he)
        show ((setIndex (setArr s i (s.arr (s.size - 1)))
            (s.arr (s.size - 1)) (i : Int)).store
          ((setIndex (setArr s i (s.arr (s.size - 1)))
            (s.arr (s.size - 1)) (i : Int)).arr j)).index = (j : Int)
        rw [show (setIndex (setArr s i (s.arr (s.size - 1)))
            (s.arr (s.size - 1)) (i : Int)).arr j = s.arr j from by
          simp [setArr_arr_ne _ _ _ hji]]
        rw [setIndex_store_ne _ _ _ hja]
        exact hIdx j (by omega)
      · intro j hj hji
        simp only at hj
        have hjn : j ≠ s.size - 1 := by omega
        show (setIndex (setArr s i (s.arr (s.size - 1)))
          (s.arr (s.size - 1)) (i : Int)).arr j ≠ s.arr (s.size - 1)
        rw [show (setIndex (setArr s i (s.arr (s.size - 1)))
            (s.arr (s.size - 1)) (i : Int)).arr j = s.arr j from by
          simp [setArr_arr_ne _ _ _ hji]]
        intro he
        exact hjn (arr_inj s hIdx (by omega) (by omega) he)
      · intro j hj hj0 hji hpji
        simp only at hj
        have hgoal :
            ∀ x, x ≠ i → (setIndex (setArr s i (s.arr (s.size - 1)))
              (s.arr (s.size - 1)) (i : Int)).arr x = s.arr x := by
          intro x hx
          simp [setArr_arr_ne _ _ _ hx]
        show ((setIndex (setArr s i (s.arr (s.size - 1)))
            (s.arr (s.size - 1)) (i : Int)).store
          ((setIndex (setArr s i (s.arr (s.size - 1)))
            (s.arr (s.size - 1)) (i : Int)).arr (parent4 j))).when ≤
          ((setIndex (setArr s i (s.arr (s.size - 1)))
            (s.arr (s.size - 1)) (i : Int)).store
          ((setIndex (setArr s i (s.arr (s.size - 1)))
            (s.arr (s.size - 1)) (i : Int)).arr j)).when
        rw [hgoal j hji, hgoal _ hpji, setIndex_when, setIndex_when]
        exact hHp j (by omega) hj0
      · intro hi0 j hj hj0 hpj
        simp only at hj
        have hji : j ≠ i := by
          have hx := parent4_lt hj0
          rw [hpj] at hx
          omega
        have hpii : parent4 i ≠ i := Nat.ne_of_lt (parent4_lt hi0)
        have hgoal :
            ∀ x, x ≠ i → (setIndex (setArr s i (s.arr (s.size - 1)))
              (s.arr (s.size - 1)) (i : Int)).arr x = s.arr x := by
          intro x hx
          simp [setArr_arr_ne _ _ _ hx]
        show ((setIndex (setArr s i (s.arr (s.size - 1)))
            (s.arr (s.size - 1)) (i : Int)).store
          ((setIndex (setArr s i (s.arr (s.size - 1)))
            (s.arr (s.size - 1)) (i : Int)).arr
              (parent4 i))).when ≤ _
        rw [hgoal _ hpii, hgoal j hji, setIndex_when, setIndex_when]
        have h1 : (s.store (s.arr (parent4 i))).when ≤ (s.store (s.arr i)).when :=
          hHp i (by omega) hi0
        have h2 : (s.store (s.arr (parent4 j))).when ≤ (s.store (s.arr j)).when :=
          hHp j (by omega) hj0
        rw [hpj] at h2
        exact le_trans h1 h2
    have hfine := fix_spec hpre
    -- characterize membership in the truncated swapped state
    have hmemtr : ∀ id, ({ setIndex (setArr s i (s.arr (s.size - 1)))
        (s.arr (s.size - 1)) (i : Int) with size := s.size - 1 } : Sched).memQ id ↔
        s.memQ id ∧ id ≠ t := by
      intro id
      constructor
      · rintro ⟨j, hj, hje⟩
        simp only at hj hje
        by_cases hji : j = i
        · subst hji
          rw [show (setIndex (setArr s j (s.arr (s.size - 1)))
              (s.arr (s.size - 1)) (j : Int)).arr j = s.arr (s.size - 1) from by
            simp] at hje
          exact ⟨⟨s.size - 1, by omega, hje⟩, fun he => hmne (hje.trans he)⟩
        · rw [show (setIndex (setArr s i (s.arr (s.size - 1)))
              (s.arr (s.size - 1)) (i : Int)).arr j = s.arr j from by
            simp [setArr_arr_ne _ _ _ hji]] at hje
          exact ⟨⟨j, by omega, hje⟩,
            fun he => harrne j (by omega) hji (hje.trans he)⟩
      · rintro ⟨⟨j, hj, hje⟩, hnt⟩
        by_cases hjn : j = s.size - 1
        · subst hjn
          refine ⟨i, by simp only; omega, ?_⟩
          rw [show (setIndex (setArr s i (s.arr (s.size - 1)))
              (s.arr (s.size - 1)) (i : Int)).arr i = s.arr (s.size - 1) from by
            simp]
          exact hje
        · have hji : j ≠ i := by
            intro he
            exact hnt (by rw [← hje, he, harr])
          refine ⟨j, by simp only; omega, ?_⟩
          rw [show (setIndex (setArr s i (s.arr (s.size - 1)))
              (s.arr (s.size - 1)) (i : Int)).arr j = s.arr j from by
            simp [setArr_arr_ne _ _ _ hji]]
          exact hje
    revert hrm
    generalize hfx : fix { setIndex (setArr s i (s.arr (s.size - 1)))
        (s.arr (s.size - 1)) (i : Int) with size := s.size - 1 }
      (s.arr (s.size - 1)) = s2
    intro hrm
    rw [hfx] at hfine
    have hszfix : s2.size = s.size - 1 := hfine.hsize
    have hmem2 : ∀ id, s2.memQ id ↔ s.memQ id ∧ id ≠ t := by
      intro id
      rw [hfine.fmem id, hmemtr id]
    have harrfix : ∀ j, j < s2.size → s2.arr j ≠ t := by
      intro j hj he
      rcases (hmem2 t).mp ⟨j, hj, he⟩ with ⟨_, hc⟩
      exact hc rfl
    rw [hrm]
    refine ⟨rfl, by simpa using hfine.hnids, ?_, ?_, ?_, ?_, ?_, ?_, by simp⟩
    · intro j hj
      simp only at hj
      show ((setIndex s2 t (-1)).store ((setIndex s2 t (-1)).arr j)).index = (j : Int)
      rw [setIndex_arr]
      rw [setIndex_store_ne _ _ _ (harrfix j (by omega))]
      exact hfine.idx j (by omega)
    · intro j hj hj0
      simp only at hj
      show ((setIndex s2 t (-1)).store ((setIndex s2 t (-1)).arr (parent4 j))).when ≤
        ((setIndex s2 t (-1)).store ((setIndex s2 t (-1)).arr j)).when
      rw [setIndex_when, setIndex_when]
      exact hfine.hp j (by omega) hj0
    · intro id
      have hstep : (({ setIndex s2 t (-1) with size := s.size - 1 } : Sched).memQ id) ↔
          s2.memQ id := by
        unfold memQ
        simp only [setIndex_arr]
        rw [hszfix]
      rw [hstep, hmem2 id]
    · intro id
      show ((setIndex s2 t (-1)).store id).when = (s.store id).when
      rw [setIndex_when, hfine.fwhen id]
      simp
    · intro id
      show ((setIndex s2 t (-1)).store id).period = (s.store id).period
      rw [setIndex_period, hfine.fperiod id]
      simp
    · intro id hm
      have hnt : id ≠ t := fun he => hm (he ▸ hmem)
      have hnm : id ≠ s.arr (s.size - 1) := by
        intro he
        exact hm ⟨s.size - 1, by omega, he.symm⟩
      have hmm : ¬ ({ setIndex (setArr s i (s.arr (s.size - 1)))
          (s.arr (s.size - 1)) (i : Int) with size := s.size - 1 } : Sched).memQ id := by
        rw [hmemtr id]
        rintro ⟨h, _⟩
        exact hm h
      show (setIndex s2 t (-1)).store id = s.store id
      rw [setIndex_store_ne _ _ _ hnt, hfine.fstore id hmm hnm]
      show (setIndex (setArr s i (s.arr (s.size - 1)))
        (s.arr (s.size - 1)) (i : Int)).store id = s.store id
      rw [setIndex_store_ne _ _ _ hnm]
      rfl

end Sched

namespace Sched

theorem memQ_iff_of_same (s s' : Sched) (harr : s'.arr = s.arr)
    (hsz : s'.size = s.size) : ∀ id, s'.memQ id ↔ s.memQ id := by
  intro id
  unfold memQ
  rw [harr, hsz]

/-- `FixPre` holds at `t`'s position whenever the state differs from a
well-formed heap only in `t`'s own `when`/`period` fields. -/
theorem fixPre_retimed (s s' : Sched) (t : Nat)
    (hIdx : IdxOK s) (hHp : HeapOK s) (hm : s.memQ t)
    (harr : s'.arr = s.arr) (hsz : s'.size = s.size)
    (hst : ∀ x, x ≠ t → s'.store x = s.store x)
    (hix : (s'.store t).index = (s.store t).index) :
    ∃ i0 : Nat, (s'.store t).index = (i0 : Int) ∧ FixPre s' t i0 := by
  obtain ⟨i, hi, harri, hidx⟩ := index_of_memQ s hIdx hm
  have harrne : ∀ j, j < s.size → j ≠ i → s.arr j ≠ t := by
    intro j hj hji he
    exact hji (arr_inj s hIdx hj hi (he.trans harri.symm))
  have hwq : ∀ j, j < s.size → j ≠ i →
      (s'.store (s.arr j)).when = (s.store (s.arr j)).when := by
    intro j hj hji
    rw [hst _ (harrne j hj hji)]
  refine ⟨i, by rw [hix, hidx], ?_⟩
  refine ⟨by omega, by rw [harr]; exact harri, by rw [hix, hidx], ?_, ?_, ?_, ?_⟩
  · intro j hj hji
    rw [hsz] at hj
    rw [harr, hst _ (harrne j hj hji)]
    exact hIdx j hj
  · intro j hj hji
    rw [hsz] at hj
    rw [harr]
    exact harrne j hj hji
  · intro j hj hj0 hji hpi
    rw [hsz] at hj
    rw [harr, hwq j hj hji, hwq _ (lt_trans (parent4_lt hj0) hj) hpi]
    exact hHp j hj hj0
  · intro hi0 j hj hj0 hpj
    rw [hsz] at hj
    have hji : j ≠ i := by
      have hx := parent4_lt hj0
      rw [hpj] at hx
      omega
    have hpii : parent4 i ≠ i := Nat.ne_of_lt (parent4_lt hi0)
    rw [harr, hwq j hj hji, hwq _ (lt_trans (parent4_lt hi0) (by omega)) hpii]
    have h1 : (s.store (s.arr (parent4 i))).when ≤ (s.store (s.arr i)).when :=
      hHp i hi hi0
    have h2 := hHp j hj hj0
    rw [hpj] at h2
    exact le_trans h1 h2

/-- `fix` on a record whose timing fields were just rewritten restores
the full invariant and preserves everything else. -/
theorem fix_retimed_spec (s s' : Sched) (t : Nat)
    (hIdx : IdxOK s) (hHp : HeapOK s) (hm : s.memQ t)
    (harr : s'.arr = s.arr) (hsz : s'.size = s.size)
    (hst : ∀ x, x ≠ t → s'.store x = s.store x)
    (hix : (s'.store t).index = (s.store t).index) :
    HeapFine s' t (s'.fix t) := by
  obtain ⟨i0, hi0, pre⟩ := fixPre_retimed s s' t hIdx hHp hm harr hsz hst hix
  exact fix_spec pre

theorem memQ_index_spec (s : Sched) (h : IdxOK s) : ∀ id, s.memQ id →
    0 ≤ (s.store id).index ∧ (s.store id).index < (s.size : Int) ∧
    s.arr ((s.store id).index.toNat) = id := by
  intro id hm
  obtain ⟨j, hj, harr, hidx⟩ := index_of_memQ s h hm
  rw [hidx]
  refine ⟨by omega, by exact_mod_cast hj, ?_⟩
  rw [Int.toNat_ofNat]
  exact harr

/-- `fix` with no key change: full invariant in, full invariant out,
with all timing fields, all records outside the queue, and queue
membership untouched. -/
theorem fix_full_spec (s : Sched) (t : Nat)
    (hIdx : IdxOK s) (hHp : HeapOK s) (hm : s.memQ t) :
    HeapFine s t (s.fix t) :=
  fix_retimed_spec s s t hIdx hHp hm rfl rfl (fun _ _ => rfl) rfl

/-- C5 helper: `DetOK` is preserved whenever membership only gained `t`,
or only lost `t` while `t` was detached, while untouched records kept
their fields. -/
theorem detok_transfer (s s' : Sched) (t : Nat) (hn : s'.nids = s.nids)
    (hDet : DetOK s)
    (hmm : ∀ id, id ≠ t → (s'.memQ id ↔ s.memQ id))
    (hfr : ∀ id, id ≠ t → ¬ s.memQ id → s'.store id = s.store id)
    (ht : ¬ s'.memQ t → (s'.store t).index = -1) : DetOK s' := by
  intro id hid hm
  by_cases hit : id = t
  · subst hit
    exact ht hm
  · rw [hmm id hit] at hm
    rw [hfr id hit hm]
    exact hDet id (by omega) hm

end Sched

/-- C5: the queue operations `insert`, `remove` and `fix`
(src/relativetime/schedule.go) each preserve the three heap invariants:
every queued record's `index` lies in `[0, size)` with `queue[e.index] = e`
(`IdxOK` plus its pointwise reading), every allocated record outside the
queue has `index = -1` (`DetOK`), and the 4-ary heap order on `when`
(`HeapOK`).  `insert` requires the record not to be queued and `remove`/
`fix` require it to be queued, matching the functions' documented
contracts. -/
theorem c5_queue_ops_preserve_invariants (s : Sched) (t : Nat)
    (hIdx : Sched.IdxOK s) (hHp : Sched.HeapOK s) (hDet : Sched.DetOK s) :
    (¬ s.memQ t →
      Sched.IdxOK (s.insert t) ∧ Sched.HeapOK (s.insert t) ∧
      Sched.DetOK (s.insert t) ∧
      (∀ id, (s.insert t).memQ id →
        0 ≤ ((s.insert t).store id).index ∧
        ((s.insert t).store id).index < ((s.insert t).size : Int) ∧
        (s.insert t).arr (((s.insert t).store id).index.toNat) = id)) ∧
    (s.memQ t →
      Sched.IdxOK (s.remove t) ∧ Sched.HeapOK (s.remove t) ∧
      Sched.DetOK (s.remove t) ∧
      (∀ id, (s.remove t).memQ id →
        0 ≤ ((s.remove t).store id).index ∧
        ((s.remove t).store id).index < ((s.remove t).size : Int) ∧
        (s.remove t).arr (((s.remove t).store id).index.toNat) = id)) ∧
    (s.memQ t →
      Sched.IdxOK (s.fix t) ∧ Sched.HeapOK (s.fix t) ∧
      Sched.DetOK (s.fix t) ∧
      (∀ id, (s.fix t).memQ id →
        0 ≤ ((s.fix t).store id).index ∧
        ((s.fix t).store id).index < ((s.fix t).size : Int) ∧
        (s.fix t).arr (((s.fix t).store id).index.toNat) = id)) := by
  refine ⟨?_, ?_, ?_⟩
  · intro hmem
    obtain ⟨hsz, hn, hidx, hhp, hmm, hwh, hpd, hfr⟩ :=
      Sched.insert_spec s t hIdx hHp hmem
    refine ⟨hidx, hhp, ?_, Sched.memQ_index_spec _ hidx⟩
    refine Sched.detok_transfer s (s.insert t) t hn hDet ?_ ?_ ?_
    · intro id hit
      rw [hmm id]
      constructor
      · rintro (h | h)
        · exact h
        · exact absurd h hit
      · exact Or.inl
    · intro id hit hm
      exact hfr id hm hit
    · intro hnm
      exact absurd ((hmm t).mpr (Or.inr rfl)) hnm
  · intro hmem
    obtain ⟨hsz, hn, hidx, hhp, hmm, hwh, hpd, hfr, hdet⟩ :=
      Sched.remove_spec s t hIdx hHp hmem
    refine ⟨hidx, hhp, ?_, Sched.memQ_index_spec _ hidx⟩
    refine Sched.detok_transfer s (s.remove t) t hn hDet ?_ ?_ (fun _ => hdet)
    · intro id hit
      rw [hmm id]
      exact ⟨fun h => h.1, fun h => ⟨h, hit⟩⟩
    · intro id hit hm
      exact hfr id hm
  · intro hmem
    have hfine := Sched.fix_full_spec s t hIdx hHp hmem
    refine ⟨hfine.idx, hfine.hp, ?_, Sched.memQ_index_spec _ hfine.idx⟩
    refine Sched.detok_transfer s (s.fix t) t hfine.hnids hDet ?_ ?_ ?_
    · intro id _
      exact hfine.fmem id
    · intro id hit hm
      exact hfine.fstore id hm hit
    · intro hnm
      exact absurd ((hfine.fmem t).mpr hmem) hnm

/-- A one-record scheduler: id 0 allocated and detached, empty queue. -/
def oneDetachedSched : Sched := ⟨fun _ => ⟨5, 0, -1⟩, fun _ => 0, 0, 1⟩

/-- Witness for C5: inserting the detached record 0 into the empty
well-formed queue preserves all three invariants. -/
theorem c5_queue_ops_preserve_invariants_witness :
    (Sched.IdxOK oneDetachedSched ∧ Sched.HeapOK oneDetachedSched ∧
      Sched.DetOK oneDetachedSched ∧ ¬ oneDetachedSched.memQ 0) ∧
    (Sched.IdxOK (oneDetachedSched.insert 0) ∧
      Sched.HeapOK (oneDetachedSched.insert 0) ∧
      Sched.DetOK (oneDetachedSched.insert 0) ∧
      (∀ id, (oneDetachedSched.insert 0).memQ id →
        0 ≤ ((oneDetachedSched.insert 0).store id).index ∧
        ((oneDetachedSched.insert 0).store id).index <
          ((oneDetachedSched.insert 0).size : Int) ∧
        (oneDetachedSched.insert 0).arr
          (((oneDetachedSched.insert 0).store id).index.toNat) = id)) :=
  ⟨⟨by decide, by decide, by decide, by decide⟩,
    (c5_queue_ops_preserve_invariants oneDetachedSched 0
      (by decide) (by decide) (by decide)).1 (by decide)⟩

namespace Sched

/-- The bundled scheduler invariant used at the clock level. -/
structure SInv (s : Sched) : Prop where
  idx : IdxOK s
  hp : HeapOK s
  ids : IdsOK s
  det : DetOK s

instance (s : Sched) : Decidable (SInv s) :=
  decidable_of_iff (IdxOK s ∧ HeapOK s ∧ IdsOK s ∧ DetOK s)
    ⟨fun ⟨a, b, c, d⟩ => ⟨a, b, c, d⟩, fun ⟨a, b, c, d⟩ => ⟨a, b, c, d⟩⟩

theorem memQ_lt_nids {s : Sched} (hids : IdsOK s) {id : Nat} (hm : s.memQ id) :
    id < s.nids := by
  obtain ⟨j, hj, rfl⟩ := hm
  exact hids j hj

/-- Removing a queued record preserves the bundled invariant; membership
loses exactly `t`; timing fields are untouched; unqueued records are
untouched; `t` ends detached. -/
theorem sinv_remove {s : Sched} {t : Nat} (hinv : SInv s) (hm : s.memQ t) :
    SInv (s.remove t) ∧ (s.remove t).nids = s.nids ∧
    (∀ id, (s.remove t).memQ id ↔ s.memQ id ∧ id ≠ t) ∧
    (∀ id, ((s.remove t).store id).when = (s.store id).when) ∧
    (∀ id, ((s.remove t).store id).period = (s.store id).period) ∧
    (∀ id, ¬ s.memQ id → (s.remove t).store id = s.store id) ∧
    ((s.remove t).store t).index = -1 := by
  obtain ⟨hsz, hn, hidx, hhp, hmm, hwh, hpd, hfr, hdet⟩ :=
    remove_spec s t hinv.idx hinv.hp hm
  refine ⟨⟨hidx, hhp, ?_, ?_⟩, hn, hmm, hwh, hpd, hfr, hdet⟩
  · intro j hj
    have hmem : (s.remove t).memQ (( s.remove t).arr j) := ⟨j, hj, rfl⟩
    rw [hmm _] at hmem
    rw [hn]
    exact memQ_lt_nids hinv.ids hmem.1
  · refine detok_transfer s (s.remove t) t hn hinv.det ?_ ?_ (fun _ => hdet)
    · intro id hit
      rw [hmm id]
      exact ⟨fun h => h.1, fun h => ⟨h, hit⟩⟩
    · intro id _ hmq
      exact hfr id hmq

/-- Rewriting a queued record's `when` and re-heapifying preserves the
bundled invariant; membership is unchanged; only `t`'s `when` changes. -/
theorem sinv_rewhen {s : Sched} {t : Nat} (v : Int) (hinv : SInv s) (hm : s.memQ t) :
    SInv ((s.setWhen t v).fix t) ∧ ((s.setWhen t v).fix t).nids = s.nids ∧
    (∀ id, ((s.setWhen t v).fix t).memQ id ↔ s.memQ id) ∧
    (∀ id, id ≠ t →
      (((s.setWhen t v).fix t).store id).when = (s.store id).when) ∧
    ((((s.setWhen t v).fix t).store t).when = v) ∧
    (∀ id, (((s.setWhen t v).fix t).store id).period = (s.store id).period) ∧
    (∀ id, ¬ s.memQ id → id ≠ t →
      ((s.setWhen t v).fix t).store id = s.store id) := by
  have hfine : HeapFine (s.setWhen t v) t ((s.setWhen t v).fix t) :=
    fix_retimed_spec s (s.setWhen t v) t hinv.idx hinv.hp hm rfl rfl
      (fun x hx => setWhen_store_ne s t v hx) (by rw [setWhen_store_self])
  have hmm : ∀ id, ((s.setWhen t v).fix t).memQ id ↔ s.memQ id := by
    intro id
    rw [hfine.fmem id]
    exact memQ_iff_of_same s (s.setWhen t v) rfl rfl id
  have hwho : ∀ id, id ≠ t →
      (((s.setWhen t v).fix t).store id).when = (s.store id).when := by
    intro id hit
    rw [hfine.fwhen id, setWhen_store_ne s t v hit]
  have hwht : (((s.setWhen t v).fix t).store t).when = v := by
    rw [hfine.fwhen t, setWhen_store_self]
  have hper : ∀ id, (((s.setWhen t v).fix t).store id).period =
      (s.store id).period := by
    intro id
    rw [hfine.fperiod id]
    by_cases hit : id = t
    · subst hit; rw [setWhen_store_self]
    · rw [setWhen_store_ne s t v hit]
  have hfr : ∀ id, ¬ s.memQ id → id ≠ t →
      ((s.setWhen t v).fix t).store id = s.store id := by
    intro id hmq hit
    have hmq' : ¬ (s.setWhen t v).memQ id := by
      rw [memQ_iff_of_same s (s.setWhen t v) rfl rfl id]
      exact hmq
    rw [hfine.fstore id hmq' hit, setWhen_store_ne s t v hit]
  refine ⟨⟨hfine.idx, hfine.hp, ?_, ?_⟩, by simpa using hfine.hnids, hmm, hwho,
    hwht, hper, hfr⟩
  · intro j hj
    have hmem : ((s.setWhen t v).fix t).memQ (((s.setWhen t v).fix t).arr j) :=
      ⟨j, hj, rfl⟩
    rw [hmm _] at hmem
    rw [show ((s.setWhen t v).fix t).nids = s.nids from by simpa using hfine.hnids]
    exact memQ_lt_nids hinv.ids hmem
  · refine detok_transfer s ((s.setWhen t v).fix t) t
      (by simpa using hfine.hnids) hinv.det (fun id _ => hmm id) ?_ ?_
    · intro id hit hmq
      exact hfr id hmq hit
    · intro hnm
      exact absurd ((hmm t).mpr hm) hnm

/-- Inserting a fresh allocated record preserves the bundled invariant. -/
theorem sinv_insert {s : Sched} {t : Nat} (hinv : SInv s) (hm : ¬ s.memQ t)
    (htn : t < s.nids) :
    SInv (s.insert t) ∧ (s.insert t).nids = s.nids ∧
    (∀ id, (s.insert t).memQ id ↔ s.memQ id ∨ id = t) ∧
    (∀ id, ((s.insert t).store id).when = (s.store id).when) ∧
    (∀ id, ((s.insert t).store id).period = (s.store id).period) ∧
    (∀ id, ¬ s.memQ id → id ≠ t → (s.insert t).store id = s.store id) := by
  obtain ⟨hsz, hn, hidx, hhp, hmm, hwh, hpd, hfr⟩ :=
    insert_spec s t hinv.idx hinv.hp hm
  refine ⟨⟨hidx, hhp, ?_, ?_⟩, hn, hmm, hwh, hpd, hfr⟩
  · intro j hj
    have hmem : (s.insert t).memQ ((s.insert t).arr j) := ⟨j, hj, rfl⟩
    rw [hmm _] at hmem
    rw [hn]
    rcases hmem with h | h
    · exact memQ_lt_nids hinv.ids h
    · rw [h]; exact htn
  · refine detok_transfer s (s.insert t) t hn hinv.det ?_ ?_ ?_
    · intro id hit
      rw [hmm id]
      constructor
      · rintro (h | h)
        · exact h
        · exact absurd h hit
      · exact Or.inl
    · intro id hit hmq
      exact hfr id hmq hit
    · intro hnm
      exact absurd ((hmm t).mpr (Or.inr rfl)) hnm

end Sched

namespace Sched

theorem peek_eq_some {s : Sched} {t : Nat} :
    s.peek = some t ↔ s.size ≠ 0 ∧ s.arr 0 = t := by
  unfold peek
  split
  · rename_i h
    simp [h]
  · rename_i h
    simp [h]

theorem peek_eq_none {s : Sched} : s.peek = none ↔ s.size = 0 := by
  unfold peek
  split
  · rename_i h
    simp [h]
  · rename_i h
    simp [h]

end Sched

namespace ClockState

@[simp] theorem fireTimer_sched (c : ClockState) (id : Nat) (t : Int) :
    (c.fireTimer id t).sched = c.sched := rfl
@[simp] theorem fireTimer_now (c : ClockState) (id : Nat) (t : Int) :
    (c.fireTimer id t).now = c.now := rfl
@[simp] theorem fireTimer_rNow (c : ClockState) (id : Nat) (t : Int) :
    (c.fireTimer id t).rNow = c.rNow := rfl
@[simp] theorem fireTimer_refNow (c : ClockState) (id : Nat) (t : Int) :
    (c.fireTimer id t).refNow = c.refNow := rfl
@[simp] theorem fireTimer_scale (c : ClockState) (id : Nat) (t : Int) :
    (c.fireTimer id t).scale = c.scale := rfl
@[simp] theorem fireTimer_active (c : ClockState) (id : Nat) (t : Int) :
    (c.fireTimer id t).active = c.active := rfl
@[simp] theorem fireTimer_fired (c : ClockState) (id : Nat) (t : Int) :
    (c.fireTimer id t).fired = c.fired ++ [(id, t)] := rfl

theorem unschedule_eq_remove (c : ClockState) (t : Nat)
    (hix : (c.sched.store t).index ≠ -1) :
    c.unschedule t = { c with sched := c.sched.remove t } := by
  unfold unschedule
  rw [if_neg hix]

theorem reschedule_eq_fix (c : ClockState) (t : Nat)
    (hix : (c.sched.store t).index ≠ -1) :
    c.reschedule t = { c with sched := c.sched.fix t } := by
  unfold reschedule
  rw [if_neg hix]

theorem reschedule_eq_insert (c : ClockState) (t : Nat)
    (hix : (c.sched.store t).index = -1) :
    c.reschedule t = { c with sched := c.sched.insert t } := by
  unfold reschedule
  rw [if_pos hix]

/-- The set of currently due queued records (the records the drain loop
must fire). -/
def dueIds (c : ClockState) : Finset Nat :=
  (Finset.range c.sched.nids).filter
    (fun id => c.sched.memQ id ∧ (c.sched.store id).when ≤ c.now)

theorem mem_dueIds {c : ClockState} {id : Nat} :
    id ∈ dueIds c ↔
      id < c.sched.nids ∧ c.sched.memQ id ∧ (c.sched.store id).when ≤ c.now := by
  unfold dueIds
  rw [Finset.mem_filter, Finset.mem_range]

theorem dueIds_card_le (c : ClockState) (hIdx : Sched.IdxOK c.sched) :
    (dueIds c).card ≤ c.sched.size := by
  have h := Finset.card_le_card_of_injOn
    (fun id => (c.sched.store id).index.toNat)
    (s := dueIds c) (t := Finset.range c.sched.size) ?_ ?_
  · simpa using h
  · intro id hid
    obtain ⟨j, hj, harr, hidx⟩ :=
      Sched.index_of_memQ c.sched hIdx (mem_dueIds.mp hid).2.1
    simp only [Finset.mem_range]
    rw [hidx]
    simpa using hj
  · intro id1 h1 id2 h2 he
    obtain ⟨j1, hj1, harr1, hidx1⟩ :=
      Sched.index_of_memQ c.sched hIdx (mem_dueIds.mp (Finset.mem_coe.mp h1)).2.1
    obtain ⟨j2, hj2, harr2, hidx2⟩ :=
      Sched.index_of_memQ c.sched hIdx (mem_dueIds.mp (Finset.mem_coe.mp h2)).2.1
    simp only [hidx1, hidx2, Int.toNat_ofNat] at he
    rw [← harr1, ← harr2, he]

/-- What one full drain guarantees, relative to the entry state `c`. -/
structure DrainOut (c : ClockState) (cres : ClockState) : Prop where
  inv : Sched.SInv cres.sched
  hnow : cres.now = c.now
  hrNow : cres.rNow = c.rNow
  hrefNow : cres.refNow = c.refNow
  hscale : cres.scale = c.scale
  hactive : cres.active = c.active
  hnids : cres.sched.nids = c.sched.nids
  nodue : ∀ id, cres.sched.memQ id → c.now < (cres.sched.store id).when
  fired : ∃ l, cres.fired = c.fired ++ l ∧ (∀ e ∈ l, e.2 = c.now) ∧
      (l.map Prod.fst).Nodup ∧ (∀ id, id ∈ l.map Prod.fst ↔ id ∈ dueIds c)
  periodic : ∀ id ∈ dueIds c, ¬ durSeconds ((c.sched.store id).period) ≤ 0 →
      cres.sched.memQ id ∧
      (cres.sched.store id).when = c.now + (c.sched.store id).period
  oneshot : ∀ id ∈ dueIds c, durSeconds ((c.sched.store id).period) ≤ 0 →
      (cres.sched.store id).index = -1 ∧ ¬ cres.sched.memQ id
  frame : ∀ id, id ∉ dueIds c →
      (cres.sched.memQ id ↔ c.sched.memQ id) ∧
      (cres.sched.store id).when = (c.sched.store id).when ∧
      (cres.sched.store id).period = (c.sched.store id).period ∧
      (¬ c.sched.memQ id → cres.sched.store id = c.sched.store id)

theorem drainOut_refl (c : ClockState) (hinv : Sched.SInv c.sched)
    (hnd : ∀ id, c.sched.memQ id → c.now < (c.sched.store id).when) :
    DrainOut c c := by
  have hdue : dueIds c = ∅ := by
    ext id
    simp only [Finset.not_mem_empty, iff_false, mem_dueIds]
    rintro ⟨_, hm, hle⟩
    exact absurd hle (not_le.mpr (hnd id hm))
  refine ⟨hinv, rfl, rfl, rfl, rfl, rfl, rfl, hnd,
    ⟨[], by simp, by simp, by simp, ?_⟩, ?_, ?_, ?_⟩
  · intro id
    simp [hdue]
  · intro id h
    rw [hdue] at h
    simp at h
  · intro id h
    rw [hdue] at h
    simp at h
  · intro id _
    exact ⟨Iff.rfl, rfl, rfl, fun _ => rfl⟩

theorem dueIds_eq_erase (c cmid : ClockState) (hd : Nat)
    (hnow : cmid.now = c.now) (hnids : cmid.sched.nids = c.sched.nids)
    (hmm : ∀ id, id ≠ hd → (cmid.sched.memQ id ↔ c.sched.memQ id))
    (hwh : ∀ id, id ≠ hd →
      (cmid.sched.store id).when = (c.sched.store id).when)
    (hnotdue : hd ∉ dueIds cmid) :
    dueIds cmid = (dueIds c).erase hd := by
  ext id
  rw [Finset.mem_erase, mem_dueIds, mem_dueIds]
  constructor
  · rintro ⟨hlt, hm, hle⟩
    have hne : id ≠ hd := by
      rintro rfl
      exact hnotdue (mem_dueIds.mpr ⟨hlt, hm, hle⟩)
    rw [hnow] at hle
    exact ⟨hne, by omega, (hmm id hne).mp hm, by rw [← hwh id hne]; exact hle⟩
  · rintro ⟨hne, hlt, hm, hle⟩
    exact ⟨by omega, (hmm id hne).mpr hm,
      by rw [hwh id hne, hnow]; exact hle⟩

theorem drainOut_step {c cmid cres : ClockState} {hd : Nat}
    (hdmem : hd ∈ dueIds c)
    (hnow : cmid.now = c.now) (hrNow : cmid.rNow = c.rNow)
    (hrefNow : cmid.refNow = c.refNow) (hscale : cmid.scale = c.scale)
    (hactive : cmid.active = c.active)
    (hnids : cmid.sched.nids = c.sched.nids)
    (hfired : cmid.fired = c.fired ++ [(hd, c.now)])
    (hmm : ∀ id, id ≠ hd → (cmid.sched.memQ id ↔ c.sched.memQ id))
    (hwh : ∀ id, id ≠ hd →
      (cmid.sched.store id).when = (c.sched.store id).when)
    (hpd : ∀ id, (cmid.sched.store id).period = (c.sched.store id).period)
    (hfr : ∀ id, id ≠ hd → ¬ c.sched.memQ id →
      cmid.sched.store id = c.sched.store id)
    (hnotdue : hd ∉ dueIds cmid)
    (hhd1 : durSeconds ((c.sched.store hd).period) ≤ 0 →
      (cmid.sched.store hd).index = -1 ∧ ¬ cmid.sched.memQ hd)
    (hhd2 : ¬ durSeconds ((c.sched.store hd).period) ≤ 0 →
      cmid.sched.memQ hd ∧
      (cmid.sched.store hd).when = c.now + (c.sched.store hd).period)
    (hout : DrainOut cmid cres) : DrainOut c cres := by
  have herase : dueIds cmid = (dueIds c).erase hd :=
    dueIds_eq_erase c cmid hd hnow hnids hmm hwh hnotdue
  have hmid_due : ∀ id, id ∈ dueIds c → id ≠ hd → id ∈ dueIds cmid := by
    intro id hdc hne
    rw [herase, Finset.mem_erase]
    exact ⟨hne, hdc⟩
  have hmid_notdue : ∀ id, id ∉ dueIds c → id ∉ dueIds cmid := by
    intro id hdc
    rw [herase, Finset.mem_erase]
    rintro ⟨_, h⟩
    exact hdc h
  refine ⟨hout.inv, by rw [hout.hnow, hnow], by rw [hout.hrNow, hrNow],
    by rw [hout.hrefNow, hrefNow], by rw [hout.hscale, hscale],
    by rw [hout.hactive, hactive], by rw [hout.hnids, hnids], ?_, ?_, ?_, ?_, ?_⟩
  · intro id hm
    have := hout.nodue id hm
    rw [hnow] at this
    exact this
  · obtain ⟨l, hl, htimes, hnodup, hcov⟩ := hout.fired
    refine ⟨(hd, c.now) :: l, ?_, ?_, ?_, ?_⟩
    · rw [hl, hfired, List.append_assoc]
      rfl
    · intro e he
      rcases List.mem_cons.mp he with rfl | he
      · rfl
      · rw [htimes e he, hnow]
    · simp only [List.map_cons, List.nodup_cons]
      refine ⟨?_, hnodup⟩
      intro hc
      have := (hcov hd).mp hc
      exact hnotdue this
    · intro id
      simp only [List.map_cons, List.mem_cons]
      rw [hcov id, herase, Finset.mem_erase]
      constructor
      · rintro (rfl | ⟨_, h⟩)
        · exact hdmem
        · exact h
      · intro h
        by_cases hne : id = hd
        · exact Or.inl hne
        · exact Or.inr ⟨hne, h⟩
  · intro id hdc hper
    by_cases hne : id = hd
    · subst hne
      obtain ⟨hm1, hw1⟩ := hhd2 hper
      have hframe := hout.frame id (by rw [herase]; simp)
      refine ⟨(hframe.1).mpr hm1, ?_⟩
      rw [hframe.2.1, hw1]
    · have hdm := hmid_due id hdc hne
      have hper' : ¬ durSeconds ((cmid.sched.store id).period) ≤ 0 := by
        rw [hpd id]
        exact hper
      obtain ⟨hm1, hw1⟩ := hout.periodic id hdm hper'
      refine ⟨hm1, ?_⟩
      rw [hw1, hnow, hpd id]
  · intro id hdc hper
    by_cases hne : id = hd
    · subst hne
      obtain ⟨hix, hm1⟩ := hhd1 hper
      have hframe := hout.frame id (by rw [herase]; simp)
      refine ⟨?_, fun hm => hm1 ((hframe.1).mp hm)⟩
      rw [hframe.2.2.2 hm1, hix]
    · have hdm := hmid_due id hdc hne
      have hper' : durSeconds ((cmid.sched.store id).period) ≤ 0 := by
        rw [hpd id]
        exact hper
      exact hout.oneshot id hdm hper'
  · intro id hdc
    have hne : id ≠ hd := by
      rintro rfl
      exact hdc hdmem
    have hframe := hout.frame id (hmid_notdue id hdc)
    refine ⟨by rw [hframe.1, hmm id hne], by rw [hframe.2.1, hwh id hne],
      by rw [hframe.2.2.1, hpd id], ?_⟩
    intro hmq
    have hmq' : ¬ cmid.sched.memQ id := by
      rw [hmm id hne]
      exact hmq
    rw [hframe.2.2.2 hmq', hfr id hne hmq]

end ClockState

namespace ClockState

theorem checkSched_none (fuel : Nat) (c : ClockState)
    (hpk : c.sched.peek = none) : checkSched (fuel + 1) c = c := by
  simp only [checkSched, hpk]

theorem checkSched_notdue (fuel : Nat) (c : ClockState) (hd : Nat)
    (hpk : c.sched.peek = some hd)
    (hwhen : c.now < (c.sched.store hd).when) :
    checkSched (fuel + 1) c = c := by
  simp only [checkSched, hpk, if_pos hwhen]

theorem checkSched_due (fuel : Nat) (c : ClockState) (hd : Nat)
    (hpk : c.sched.peek = some hd)
    (hwhen : ¬ c.now < (c.sched.store hd).when) :
    checkSched (fuel + 1) c = checkSched fuel
      ((if durSeconds ((c.sched.store hd).period) ≤ 0 then c.unschedule hd
        else ({ c with sched :=
            c.sched.setWhen hd (c.now + (c.sched.store hd).period) } :
          ClockState).reschedule hd).fireTimer hd c.now) := by
  simp only [checkSched, hpk, if_neg hwhen]

theorem checkSched_spec : ∀ fuel (c : ClockState), Sched.SInv c.sched →
    (dueIds c).card ≤ fuel → DrainOut c (checkSched fuel c) := by
  intro fuel
  induction fuel with
  | zero =>
    intro c hinv hcard
    have hdue : dueIds c = ∅ := Finset.card_eq_zero.mp (by omega)
    refine drainOut_refl c hinv ?_
    intro id hm
    by_contra h
    push_neg at h
    have : id ∈ dueIds c :=
      mem_dueIds.mpr ⟨Sched.memQ_lt_nids hinv.ids hm, hm, h⟩
    rw [hdue] at this
    simp at this
  | succ fuel ih =>
    intro c hinv hcard
    match hpk : c.sched.peek with
    | none =>
      rw [checkSched_none fuel c hpk]
      refine drainOut_refl c hinv ?_
      intro id hm
      obtain ⟨j, hj, _⟩ := hm
      rw [Sched.peek_eq_none.mp hpk] at hj
      omega
    | some hd =>
      obtain ⟨hsz0, harr0⟩ := Sched.peek_eq_some.mp hpk
      have hm : c.sched.memQ hd := ⟨0, by omega, harr0⟩
      by_cases hwhen : c.now < (c.sched.store hd).when
      · rw [checkSched_notdue fuel c hd hpk hwhen]
        refine drainOut_refl c hinv ?_
        intro id hmid
        obtain ⟨j, hj, rfl⟩ := hmid
        calc c.now < (c.sched.store hd).when := hwhen
          _ = (c.sched.store (c.sched.arr 0)).when := by rw [harr0]
          _ ≤ (c.sched.store (c.sched.arr j)).when :=
            Sched.heap_root_min c.sched hinv.hp j hj
      · rw [checkSched_due fuel c hd hpk hwhen]
        have hidx0 : (c.sched.store hd).index = (0 : Int) := by
          have := hinv.idx 0 (by omega)
          rw [harr0] at this
          simpa using this
        have hixne : (c.sched.store hd).index ≠ -1 := by
          rw [hidx0]
          decide
        have hddue : hd ∈ dueIds c :=
          mem_dueIds.mpr ⟨Sched.memQ_lt_nids hinv.ids hm, hm,
            le_of_not_lt hwhen⟩
        by_cases hper : durSeconds ((c.sched.store hd).period) ≤ 0
        · -- one-shot path: unschedule, fire, recurse
          rw [if_pos hper]
          have hun : c.unschedule hd = { c with sched := c.sched.remove hd } :=
            unschedule_eq_remove c hd hixne
          obtain ⟨hinv2, hn2, hmm2, hwh2, hpd2, hfr2, hdet2⟩ :=
            Sched.sinv_remove hinv hm
          have hnotdue : hd ∉ dueIds ((c.unschedule hd).fireTimer hd c.now) := by
            rw [mem_dueIds]
            rintro ⟨_, hmq, _⟩
            simp only [fireTimer_sched, hun] at hmq
            exact ((hmm2 hd).mp hmq).2 rfl
          have herase : dueIds ((c.unschedule hd).fireTimer hd c.now) =
              (dueIds c).erase hd := by
            refine dueIds_eq_erase c _ hd (by simp [hun]) (by simp [hun, hn2])
              ?_ ?_ hnotdue
            · intro id hne
              simp only [fireTimer_sched, hun]
              rw [hmm2 id]
              exact ⟨fun h => h.1, fun h => ⟨h, hne⟩⟩
            · intro id _
              simp only [fireTimer_sched, hun]
              exact hwh2 id
          have hcard2 : (dueIds ((c.unschedule hd).fireTimer hd c.now)).card ≤
              fuel := by
            rw [herase, Finset.card_erase_of_mem hddue]
            omega
          have hout := ih ((c.unschedule hd).fireTimer hd c.now)
            (by simpa [hun] using hinv2) hcard2
          refine drainOut_step hddue (by simp [hun]) (by simp [hun])
            (by simp [hun]) (by simp [hun]) (by simp [hun])
            (by simp [hun, hn2]) (by simp [hun]) ?_ ?_ ?_ ?_ hnotdue ?_ ?_ hout
          · intro id hne
            simp only [fireTimer_sched, hun]
            rw [hmm2 id]
            exact ⟨fun h => h.1, fun h => ⟨h, hne⟩⟩
          · intro id _
            simp only [fireTimer_sched, hun]
            exact hwh2 id
          · intro id
            simp only [fireTimer_sched, hun]
            exact hpd2 id
          · intro id _ hmq
            simp only [fireTimer_sched, hun]
            exact hfr2 id hmq
          · intro _
            simp only [fireTimer_sched, hun]
            refine ⟨hdet2, ?_⟩
            rw [hmm2 hd]
            rintro ⟨_, h⟩
            exact h rfl
          · intro h
            exact absurd hper h
        · -- periodic path: advance when, re-heapify, fire, recurse
          rw [if_neg hper]
          have hixne' : ((c.sched.setWhen hd (c.now + (c.sched.store hd).period)).store hd).index ≠ -1 := by
            rw [Sched.setWhen_store_self]
            exact hixne
          have hre : ({ c with sched := c.sched.setWhen hd (c.now + (c.sched.store hd).period) } : ClockState).reschedule hd = ({ c with sched := (c.sched.setWhen hd (c.now + (c.sched.store hd).period)).fix hd } : ClockState) := by
            rw [reschedule_eq_fix _ hd hixne']
          obtain ⟨hinv2, hn2, hmm2, hwh2, hwht2, hpd2, hfr2⟩ :=
            Sched.sinv_rewhen (c.now + (c.sched.store hd).period) hinv hm
          have hpos : (0 : Int) < (c.sched.store hd).period := by
            rw [durSeconds_le_zero] at hper
            omega
          have hnotdue : hd ∉ dueIds ((({ c with sched := c.sched.setWhen hd (c.now + (c.sched.store hd).period) } : ClockState).reschedule hd).fireTimer hd c.now) := by
            rw [mem_dueIds]
            rintro ⟨_, _, hle⟩
            rw [show ((({ c with sched := c.sched.setWhen hd (c.now + (c.sched.store hd).period) } : ClockState).reschedule hd).fireTimer hd c.now).sched = (c.sched.setWhen hd (c.now + (c.sched.store hd).period)).fix hd from by rw [fireTimer_sched, hre]] at hle
            rw [show ((({ c with sched := c.sched.setWhen hd (c.now + (c.sched.store hd).period) } : ClockState).reschedule hd).fireTimer hd c.now).now = c.now from by rw [fireTimer_now, hre]] at hle
            rw [hwht2] at hle
            omega
          have herase : dueIds ((({ c with sched := c.sched.setWhen hd (c.now + (c.sched.store hd).period) } : ClockState).reschedule hd).fireTimer hd c.now) = (dueIds c).erase hd := by
            refine dueIds_eq_erase c _ hd (by rw [fireTimer_now, hre]) (by rw [fireTimer_sched, hre]; exact hn2) ?_ ?_ hnotdue
            · intro id _
              rw [fireTimer_sched, hre]
              exact hmm2 id
            · intro id hne
              rw [fireTimer_sched, hre]
              exact hwh2 id hne
          have hcard2 : (dueIds ((({ c with sched := c.sched.setWhen hd (c.now + (c.sched.store hd).period) } : ClockState).reschedule hd).fireTimer hd c.now)).card ≤ fuel := by
            rw [herase, Finset.card_erase_of_mem hddue]
            omega
          have hout := ih _ (by rw [fireTimer_sched, hre]; exact hinv2) hcard2
          refine drainOut_step hddue (by rw [fireTimer_now, hre]) (by rw [fireTimer_rNow, hre]) (by rw [fireTimer_refNow, hre]) (by rw [fireTimer_scale, hre]) (by rw [fireTimer_active, hre]) (by rw [fireTimer_sched, hre]; exact hn2) (by rw [fireTimer_fired, hre]) ?_ ?_ ?_ ?_ hnotdue ?_ ?_ hout
          · intro id _
            rw [fireTimer_sched, hre]
            exact hmm2 id
          · intro id hne
            rw [fireTimer_sched, hre]
            exact hwh2 id hne
          · intro id
            rw [fireTimer_sched, hre]
            exact hpd2 id
          · intro id hne hmq
            rw [fireTimer_sched, hre]
            exact hfr2 id hmq hne
          · intro h
            exact absurd h hper
          · intro _
            rw [fireTimer_sched, hre]
            exact ⟨(hmm2 hd).mpr hm, hwht2⟩

end ClockState

/-- C4: a full drain (`checkSchedule`, run by `Set`, `Step` and the waker
callback `wake`) leaves no queued event with `when ≤ now_local`; the due
events are fired exactly once each, with `now_local` as the argument;
each due periodic event (`period > 0`) is reinserted with
`when = now_local + period`; each due one-shot ends detached
(`index = -1`, out of the queue).  The scheduler invariant is preserved
and local time is unchanged by the drain. -/
theorem c4_checkSchedule_drains (c : ClockState) (hinv : Sched.SInv c.sched) :
    Sched.SInv (c.checkSchedule).sched ∧
    (c.checkSchedule).now = c.now ∧
    (∀ id, (c.checkSchedule).sched.memQ id →
      c.now < ((c.checkSchedule).sched.store id).when) ∧
    (∃ l, (c.checkSchedule).fired = c.fired ++ l ∧
      (∀ e ∈ l, e.2 = c.now) ∧ (l.map Prod.fst).Nodup ∧
      (∀ id, id ∈ l.map Prod.fst ↔ id ∈ ClockState.dueIds c)) ∧
    (∀ id ∈ ClockState.dueIds c, 0 < (c.sched.store id).period →
      (c.checkSchedule).sched.memQ id ∧
      ((c.checkSchedule).sched.store id).when =
        c.now + (c.sched.store id).period) ∧
    (∀ id ∈ ClockState.dueIds c, (c.sched.store id).period ≤ 0 →
      ((c.checkSchedule).sched.store id).index = -1 ∧
      ¬ (c.checkSchedule).sched.memQ id) := by
  have hout := ClockState.checkSched_spec c.sched.size c hinv
    (ClockState.dueIds_card_le c hinv.idx)
  have hsched : (c.checkSchedule).sched =
      (ClockState.checkSched c.sched.size c).sched := by
    unfold ClockState.checkSchedule
    rw [ClockState.resetWaker_sched]
  have hfired : (c.checkSchedule).fired =
      (ClockState.checkSched c.sched.size c).fired := by
    unfold ClockState.checkSchedule
    rw [ClockState.resetWaker_fired]
  have hnow : (c.checkSchedule).now =
      (ClockState.checkSched c.sched.size c).now := by
    unfold ClockState.checkSchedule
    rw [ClockState.resetWaker_now]
  rw [hsched, hfired, hnow]
  refine ⟨hout.inv, hout.hnow, hout.nodue, hout.fired, ?_, ?_⟩
  · intro id hdue hpos
    exact hout.periodic id hdue (by rw [durSeconds_le_zero]; omega)
  · intro id hdue hneg
    exact hout.oneshot id hdue (by rw [durSeconds_le_zero]; omega)

/-- A clock with one due ticker (period 50, due at local time 175). -/
def drainDemo : ClockState :=
  { (((newClock 0 1 0).start).newTickerCore 50).1 with now := 175 }

/-- Witness for C4 on `drainDemo`. -/
theorem c4_checkSchedule_drains_witness :
    Sched.SInv drainDemo.sched ∧
    (∀ id, (drainDemo.checkSchedule).sched.memQ id →
      drainDemo.now < ((drainDemo.checkSchedule).sched.store id).when) ∧
    (∀ id ∈ ClockState.dueIds drainDemo, 0 < (drainDemo.sched.store id).period →
      (drainDemo.checkSchedule).sched.memQ id ∧
      ((drainDemo.checkSchedule).sched.store id).when =
        drainDemo.now + (drainDemo.sched.store id).period) :=
  ⟨by decide, (c4_checkSchedule_drains drainDemo (by decide)).2.2.1,
    (c4_checkSchedule_drains drainDemo (by decide)).2.2.2.2.1⟩

namespace Sched

/-- Rewriting the `when` of a detached record disturbs nothing: the
invariant survives and the record stays detached. -/
theorem sinv_setWhen_detached {s : Sched} {t : Nat} (v : Int)
    (hinv : SInv s) (hm : ¬ s.memQ t) :
    SInv (s.setWhen t v) ∧ ¬ (s.setWhen t v).memQ t := by
  have harrne : ∀ j, j < s.size → s.arr j ≠ t := by
    intro j hj he
    exact hm ⟨j, hj, he⟩
  have hmm : ∀ id, (s.setWhen t v).memQ id ↔ s.memQ id :=
    memQ_iff_of_same s (s.setWhen t v) rfl rfl
  refine ⟨⟨?_, ?_, ?_, ?_⟩, fun h => hm ((hmm t).mp h)⟩
  · intro j hj
    simp only [setWhen_size] at hj
    show ((s.setWhen t v).store ((s.setWhen t v).arr j)).index = (j : Int)
    rw [setWhen_arr, setWhen_store_ne s t v (harrne j hj)]
    exact hinv.idx j hj
  · intro j hj hj0
    simp only [setWhen_size] at hj
    show ((s.setWhen t v).store ((s.setWhen t v).arr (parent4 j))).when ≤
      ((s.setWhen t v).store ((s.setWhen t v).arr j)).when
    rw [setWhen_arr, setWhen_store_ne s t v (harrne j hj),
      setWhen_store_ne s t v (harrne _ (lt_trans (parent4_lt hj0) hj))]
    exact hinv.hp j hj hj0
  · intro j hj
    simp only [setWhen_size] at hj
    rw [setWhen_arr, setWhen_nids]
    exact hinv.ids j hj
  · intro id hid hmq
    rw [hmm id] at hmq
    by_cases hit : id = t
    · subst hit
      rw [setWhen_store_self]
      show (s.store id).index = -1
      exact hinv.det id (by simpa using hid) hmq
    · rw [setWhen_store_ne s t v hit]
      exact hinv.det id (by simpa using hid) hmq

end Sched

/-- C7: `Timer.Reset(d)` reports `true` exactly when the record was still
queued (`index ≠ -1`) at the call; afterwards the record is queued with
`when = now_local + d` (where `now_local` is the value `Now()` reported
at the start of the call): re-heapified in place (size unchanged) when it
was queued, freshly inserted (size + 1) when it was detached.  The
scheduler invariant is preserved. -/
theorem c7_timer_reset (c : ClockState) (t : Nat) (d : Int)
    (hinv : Sched.SInv c.sched) (htn : t < c.sched.nids) :
    ((c.timerReset t d).2 = true ↔ (c.sched.store t).index ≠ -1) ∧
    (c.timerReset t d).1.sched.memQ t ∧
    ((c.timerReset t d).1.sched.store t).when = c.nowLocal c.refNow + d ∧
    Sched.SInv (c.timerReset t d).1.sched ∧
    ((c.sched.store t).index ≠ -1 →
      (c.timerReset t d).1.sched.size = c.sched.size) ∧
    ((c.sched.store t).index = -1 →
      (c.timerReset t d).1.sched.size = c.sched.size + 1) := by
  have hb : (c.timerReset t d).2 = decide ((c.sched.store t).index ≠ -1) := rfl
  have hsched : (c.timerReset t d).1.sched = (({ c.advanceRef c.refNow with sched := (c.advanceRef c.refNow).sched.setWhen t ((c.advanceRef c.refNow).now + d) } : ClockState).reschedule t).sched := by
    unfold ClockState.timerReset
    rw [ClockState.resetWaker_sched]
  have hsched2 : (c.advanceRef c.refNow).sched = c.sched := rfl
  have hnow2 : (c.advanceRef c.refNow).now = c.nowLocal c.refNow := rfl
  refine ⟨by rw [hb]; exact decide_eq_true_iff, ?_⟩
  rw [hsched, hsched2, hnow2]
  by_cases hix : (c.sched.store t).index = -1
  · -- detached: reschedule inserts
    have hnm : ¬ c.sched.memQ t := Sched.not_memQ_of_neg c.sched hinv.idx hix
    have hixw : ((c.sched.setWhen t (c.nowLocal c.refNow + d)).store t).index
        = -1 := by
      rw [Sched.setWhen_store_self]
      exact hix
    have hre : ({ c.advanceRef c.refNow with sched := c.sched.setWhen t (c.nowLocal c.refNow + d) } : ClockState).reschedule t = ({ c.advanceRef c.refNow with sched := (c.sched.setWhen t (c.nowLocal c.refNow + d)).insert t } : ClockState) := by
      have := ClockState.reschedule_eq_insert ({ c.advanceRef c.refNow with sched := c.sched.setWhen t (c.nowLocal c.refNow + d) } : ClockState) t hixw
      exact this
    rw [hre]
    obtain ⟨hinvW, hnmW⟩ :=
      Sched.sinv_setWhen_detached (c.nowLocal c.refNow + d) hinv hnm
    obtain ⟨hinvI, hnI, hmmI, hwhI, hpdI, hfrI⟩ :=
      Sched.sinv_insert hinvW hnmW (by simpa using htn)
    obtain ⟨hszI, _⟩ := Sched.insert_spec _ t hinvW.idx hinvW.hp hnmW
    refine ⟨(hmmI t).mpr (Or.inr rfl), ?_, hinvI, fun h => absurd hix h, ?_⟩
    · rw [hwhI t, Sched.setWhen_store_self]
    · intro _
      rw [hszI]
      simp
  · -- queued: reschedule re-heapifies in place
    have hmq : c.sched.memQ t := by
      by_contra hnm
      exact hix (hinv.det t htn hnm)
    have hixw : ((c.sched.setWhen t (c.nowLocal c.refNow + d)).store t).index
        ≠ -1 := by
      rw [Sched.setWhen_store_self]
      exact hix
    have hre : ({ c.advanceRef c.refNow with sched := c.sched.setWhen t (c.nowLocal c.refNow + d) } : ClockState).reschedule t = ({ c.advanceRef c.refNow with sched := (c.sched.setWhen t (c.nowLocal c.refNow + d)).fix t } : ClockState) := by
      have := ClockState.reschedule_eq_fix ({ c.advanceRef c.refNow with sched := c.sched.setWhen t (c.nowLocal c.refNow + d) } : ClockState) t hixw
      exact this
    rw [hre]
    obtain ⟨hinvF, hnF, hmmF, hwhF, hwhtF, hpdF, hfrF⟩ :=
      Sched.sinv_rewhen (c.nowLocal c.refNow + d) hinv hmq
    have hfine := Sched.fix_retimed_spec c.sched
      (c.sched.setWhen t (c.nowLocal c.refNow + d)) t hinv.idx hinv.hp hmq
      rfl rfl (fun x hx => Sched.setWhen_store_ne c.sched t _ hx)
      (by rw [Sched.setWhen_store_self])
    refine ⟨(hmmF t).mpr hmq, hwhtF, hinvF, ?_, fun h => absurd h hix⟩
    intro _
    rw [hfine.hsize]
    simp

namespace Sched

/-- Generic form of `sinv_setWhen_detached`: any rewrite that touches only
a detached record's timing fields preserves the invariant. -/
theorem sinv_retimed_detached (s s' : Sched) (t : Nat)
    (hinv : SInv s) (hm : ¬ s.memQ t)
    (harr : s'.arr = s.arr) (hsz : s'.size = s.size) (hnids : s'.nids = s.nids)
    (hst : ∀ x, x ≠ t → s'.store x = s.store x)
    (hix : (s'.store t).index = (s.store t).index) :
    SInv s' ∧ ¬ s'.memQ t := by
  have harrne : ∀ j, j < s.size → s.arr j ≠ t := by
    intro j hj he
    exact hm ⟨j, hj, he⟩
  have hmm : ∀ id, s'.memQ id ↔ s.memQ id := memQ_iff_of_same s s' harr hsz
  refine ⟨⟨?_, ?_, ?_, ?_⟩, fun h => hm ((hmm t).mp h)⟩
  · intro j hj
    rw [hsz] at hj
    rw [harr, hst _ (harrne j hj)]
    exact hinv.idx j hj
  · intro j hj hj0
    rw [hsz] at hj
    rw [harr, hst _ (harrne j hj),
      hst _ (harrne _ (lt_trans (parent4_lt hj0) hj))]
    exact hinv.hp j hj hj0
  · intro j hj
    rw [hsz] at hj
    rw [harr, hnids]
    exact hinv.ids j hj
  · intro id hid hmq
    rw [hmm id] at hmq
    by_cases hit : id = t
    · subst hit
      rw [hix]
      exact hinv.det id (by omega) hmq
    · rw [hst _ hit]
      exact hinv.det id (by omega) hmq

/-- Generic form of `sinv_rewhen`: `fix` after any rewrite of a queued
record's timing fields. -/
theorem sinv_fix_retimed (s s' : Sched) (t : Nat) (hinv : SInv s) (hm : s.memQ t)
    (harr : s'.arr = s.arr) (hsz : s'.size = s.size) (hnids : s'.nids = s.nids)
    (hst : ∀ x, x ≠ t → s'.store x = s.store x)
    (hix : (s'.store t).index = (s.store t).index) :
    SInv (s'.fix t) ∧ (s'.fix t).nids = s.nids ∧
    (∀ id, (s'.fix t).memQ id ↔ s.memQ id) ∧
    (∀ id, ¬ s.memQ id → id ≠ t → (s'.fix t).store id = s.store id) := by
  have hfine : HeapFine s' t (s'.fix t) :=
    fix_retimed_spec s s' t hinv.idx hinv.hp hm harr hsz hst hix
  have hmm : ∀ id, (s'.fix t).memQ id ↔ s.memQ id := by
    intro id
    rw [hfine.fmem id]
    exact memQ_iff_of_same s s' harr hsz id
  have hfr : ∀ id, ¬ s.memQ id → id ≠ t → (s'.fix t).store id = s.store id := by
    intro id hmq hit
    have hmq' : ¬ s'.memQ id := by
      rw [memQ_iff_of_same s s' harr hsz id]
      exact hmq
    rw [hfine.fstore id hmq' hit, hst _ hit]
  have hnids' : (s'.fix t).nids = s.nids := by rw [hfine.hnids, hnids]
  refine ⟨⟨hfine.idx, hfine.hp, ?_, ?_⟩, hnids', hmm, hfr⟩
  · intro j hj
    have hmem : (s'.fix t).memQ ((s'.fix t).arr j) := ⟨j, hj, rfl⟩
    rw [hmm _] at hmem
    rw [hnids']
    exact memQ_lt_nids hinv.ids hmem
  · refine detok_transfer s (s'.fix t) t hnids' hinv.det (fun id _ => hmm id)
      ?_ ?_
    · intro id hit hmq
      exact hfr id hmq hit
    · intro hnm
      exact absurd ((hmm t).mpr hm) hnm

end Sched

namespace ClockState

@[simp] theorem alloc_sched_arr (c : ClockState) (v p : Int) :
    (c.alloc v p).1.sched.arr = c.sched.arr := rfl
@[simp] theorem alloc_sched_size (c : ClockState) (v p : Int) :
    (c.alloc v p).1.sched.size = c.sched.size := rfl
@[simp] theorem alloc_sched_nids (c : ClockState) (v p : Int) :
    (c.alloc v p).1.sched.nids = c.sched.nids + 1 := rfl
@[simp] theorem alloc_fired (c : ClockState) (v p : Int) :
    (c.alloc v p).1.fired = c.fired := rfl
@[simp] theorem alloc_id (c : ClockState) (v p : Int) :
    (c.alloc v p).2 = c.sched.nids := rfl

theorem alloc_store_ne (c : ClockState) (v p : Int) {x : Nat}
    (h : x ≠ c.sched.nids) : (c.alloc v p).1.sched.store x = c.sched.store x := by
  show Function.update c.sched.store c.sched.nids ⟨v, p, 0⟩ x = c.sched.store x
  exact Function.update_noteq h _ _

/-- Allocating a fresh record and inserting it preserves the bundled
invariant; previously allocated records and their membership are
untouched. -/
theorem alloc_insert_spec (c : ClockState) (v p : Int)
    (hinv : Sched.SInv c.sched) :
    Sched.SInv ((c.alloc v p).1.sched.insert (c.alloc v p).2) ∧
    ((c.alloc v p).1.sched.insert (c.alloc v p).2).nids = c.sched.nids + 1 ∧
    (∀ id, id ≠ c.sched.nids →
      (((c.alloc v p).1.sched.insert (c.alloc v p).2).memQ id ↔
        c.sched.memQ id)) ∧
    (∀ id, id ≠ c.sched.nids → ¬ c.sched.memQ id →
      ((c.alloc v p).1.sched.insert (c.alloc v p).2).store id =
        c.sched.store id) := by
  have hmm0 : ∀ id, (c.alloc v p).1.sched.memQ id ↔ c.sched.memQ id :=
    Sched.memQ_iff_of_same c.sched (c.alloc v p).1.sched rfl rfl
  have hfresh : ¬ (c.alloc v p).1.sched.memQ c.sched.nids := by
    rw [hmm0]
    intro hm
    exact absurd (Sched.memQ_lt_nids hinv.ids hm) (lt_irrefl _)
  have hIdx1 : Sched.IdxOK (c.alloc v p).1.sched := by
    intro j hj
    rw [alloc_sched_size] at hj
    show ((c.alloc v p).1.sched.store (c.sched.arr j)).index = (j : Int)
    rw [alloc_store_ne c v p (Nat.ne_of_lt (hinv.ids j hj))]
    exact hinv.idx j hj
  have hHp1 : Sched.HeapOK (c.alloc v p).1.sched := by
    intro j hj hj0
    rw [alloc_sched_size] at hj
    show ((c.alloc v p).1.sched.store (c.sched.arr (Sched.parent4 j))).when ≤
      ((c.alloc v p).1.sched.store (c.sched.arr j)).when
    rw [alloc_store_ne c v p (Nat.ne_of_lt (hinv.ids j hj)),
      alloc_store_ne c v p
        (Nat.ne_of_lt (hinv.ids _ (lt_trans (Sched.parent4_lt hj0) hj)))]
    exact hinv.hp j hj hj0
  obtain ⟨hsz, hn, hidx, hhp, hmm, hwh, hpd, hfr⟩ :=
    Sched.insert_spec (c.alloc v p).1.sched (c.alloc v p).2 hIdx1 hHp1
      (by rw [alloc_id]; exact hfresh)
  have hmm' : ∀ id, id ≠ c.sched.nids →
      (((c.alloc v p).1.sched.insert (c.alloc v p).2).memQ id ↔
        c.sched.memQ id) := by
    intro id hne
    rw [hmm id, alloc_id, hmm0 id]
    constructor
    · rintro (h | h)
      · exact h
      · exact absurd h hne
    · exact Or.inl
  have hfr' : ∀ id, id ≠ c.sched.nids → ¬ c.sched.memQ id →
      ((c.alloc v p).1.sched.insert (c.alloc v p).2).store id =
        c.sched.store id := by
    intro id hne hmq
    rw [hfr id (by rw [hmm0 id]; exact hmq) (by rw [alloc_id]; exact hne),
      alloc_store_ne c v p hne]
  refine ⟨⟨hidx, hhp, ?_, ?_⟩, by rw [hn, alloc_sched_nids], hmm', hfr'⟩
  · intro j hj
    have hmem : ((c.alloc v p).1.sched.insert (c.alloc v p).2).memQ
        (((c.alloc v p).1.sched.insert (c.alloc v p).2).arr j) := ⟨j, hj, rfl⟩
    rw [hmm _, hmm0 _] at hmem
    rw [hn, alloc_sched_nids]
    rcases hmem with h | h
    · have := Sched.memQ_lt_nids hinv.ids h
      omega
    · rw [h, alloc_id]
      omega
  · intro id hid hmq
    rw [hn, alloc_sched_nids] at hid
    by_cases hne : id = c.sched.nids
    · subst hne
      exact absurd ((hmm c.sched.nids).mpr (Or.inr (alloc_id c v p).symm)) hmq
    · rw [hfr' id hne (by rw [← hmm' id hne]; exact hmq)]
      exact hinv.det id (by omega) (by rw [← hmm' id hne]; exact hmq)

end ClockState

/-- C7 witness: `c7_timer_reset` at a concrete one-ticker clock, resetting
the queued record. -/
theorem c7_timer_reset_witness :
    (((((newClock 0 1 0).start).newTickerCore 50).1.timerReset 0 100).2 = true ↔
      (((((newClock 0 1 0).start).newTickerCore 50).1).sched.store 0).index ≠ -1) ∧
    ((((newClock 0 1 0).start).newTickerCore 50).1.timerReset 0 100).1.sched.memQ 0 ∧
    Sched.SInv ((((newClock 0 1 0).start).newTickerCore 50).1.timerReset 0 100).1.sched :=
  ⟨(c7_timer_reset (((newClock 0 1 0).start).newTickerCore 50).1 0 100
      (by decide) (by decide)).1,
   (c7_timer_reset (((newClock 0 1 0).start).newTickerCore 50).1 0 100
      (by decide) (by decide)).2.1,
   (c7_timer_reset (((newClock 0 1 0).start).newTickerCore 50).1 0 100
      (by decide) (by decide)).2.2.2.1⟩

/-- The entries of the invocation log belonging to record `t`. -/
def firesOf (t : Nat) (l : List (Nat × Int)) : List (Nat × Int) :=
  l.filter (fun e => e.1 == t)

theorem firesOf_append (t : Nat) (l1 l2 : List (Nat × Int)) :
    firesOf t (l1 ++ l2) = firesOf t l1 ++ firesOf t l2 :=
  List.filter_append l1 l2

namespace ClockState

/-- A stopped record: the invariant holds, the id is allocated, and the
record is detached (`index = -1`, hence not queued). -/
def Detached (c : ClockState) (t : Nat) : Prop :=
  Sched.SInv c.sched ∧ t < c.sched.nids ∧ (c.sched.store t).index = -1

theorem detached_congr {c c' : ClockState} {t : Nat}
    (hs : c'.sched = c.sched) (h : Detached c t) : Detached c' t := by
  unfold Detached at h ⊢
  rw [hs]
  exact h

/-- A full drain never fires a detached record and leaves it detached. -/
theorem checkSchedule_detached (c : ClockState) (t : Nat) (h : Detached c t) :
    Detached c.checkSchedule t ∧
    firesOf t c.checkSchedule.fired = firesOf t c.fired := by
  obtain ⟨hinv, htn, hix⟩ := h
  have hnm : ¬ c.sched.memQ t := Sched.not_memQ_of_neg c.sched hinv.idx hix
  have hout : DrainOut c (checkSched c.sched.size c) :=
    checkSched_spec c.sched.size c hinv (dueIds_card_le c hinv.idx)
  have htd : t ∉ dueIds c := fun hm => hnm (mem_dueIds.mp hm).2.1
  have hfr := hout.frame t htd
  have hstore : (checkSched c.sched.size c).sched.store t = c.sched.store t :=
    hfr.2.2.2 hnm
  obtain ⟨l, hl, _, _, hcov⟩ := hout.fired
  have hlnil : firesOf t l = [] := by
    rw [firesOf, List.filter_eq_nil_iff]
    intro e he hp
    have het : e.1 = t := by simpa using hp
    have : t ∈ l.map Prod.fst := List.mem_map.mpr ⟨e, he, het⟩
    exact htd ((hcov t).mp this)
  have hsched : c.checkSchedule.sched = (checkSched c.sched.size c).sched := by
    unfold ClockState.checkSchedule
    rw [resetWaker_sched]
  have hfired : c.checkSchedule.fired = (checkSched c.sched.size c).fired := by
    unfold ClockState.checkSchedule
    rw [resetWaker_fired]
  refine ⟨⟨?_, ?_, ?_⟩, ?_⟩
  · rw [hsched]
    exact hout.inv
  · rw [hsched, hout.hnids]
    exact htn
  · rw [hsched, hstore]
    exact hix
  · rw [hfired, hl, firesOf_append, hlnil, List.append_nil]

end ClockState

namespace ClockState

/-- Allocating and scheduling a fresh record (the common body of
`NewTimer`/`NewTicker`/`AfterFunc`/`Sleep`) leaves every previously
stopped record stopped and fires nothing. -/
theorem alloc_insert_reset_detached (c : ClockState) (v p : Int) (t : Nat)
    (h : Detached c t) :
    Detached (({ (c.alloc v p).1 with sched := (c.alloc v p).1.sched.insert (c.alloc v p).2 } : ClockState).resetWaker false) t ∧
    (({ (c.alloc v p).1 with sched := (c.alloc v p).1.sched.insert (c.alloc v p).2 } : ClockState).resetWaker false).fired = c.fired := by
  obtain ⟨hinv, htn, hix⟩ := h
  have hnm : ¬ c.sched.memQ t := Sched.not_memQ_of_neg c.sched hinv.idx hix
  obtain ⟨hinvI, hnI, hmmI, hfrI⟩ := alloc_insert_spec c v p hinv
  have hsched : (({ (c.alloc v p).1 with sched := (c.alloc v p).1.sched.insert (c.alloc v p).2 } : ClockState).resetWaker false).sched = (c.alloc v p).1.sched.insert (c.alloc v p).2 := by
    rw [resetWaker_sched]
  have hfired : (({ (c.alloc v p).1 with sched := (c.alloc v p).1.sched.insert (c.alloc v p).2 } : ClockState).resetWaker false).fired = c.fired := by
    rw [resetWaker_fired]
    rfl
  refine ⟨⟨?_, ?_, ?_⟩, hfired⟩
  · rw [hsched]
    exact hinvI
  · rw [hsched, hnI]
    omega
  · rw [hsched, hfrI t (Nat.ne_of_lt htn) hnm]
    exact hix

/-- `Timer.Stop` (and `Ticker.Stop`) on any allocated handle leaves every
stopped record stopped and fires nothing. -/
theorem unschedule_reset_detached (c : ClockState) (id t : Nat)
    (hid : id < c.sched.nids) (h : Detached c t) :
    Detached ((c.unschedule id).resetWaker false) t ∧
    ((c.unschedule id).resetWaker false).fired = c.fired := by
  obtain ⟨hinv, htn, hix⟩ := h
  unfold ClockState.unschedule
  by_cases hidx : (c.sched.store id).index = -1
  · rw [if_pos hidx, resetWaker_fired]
    exact ⟨⟨by rw [resetWaker_sched]; exact hinv,
      by rw [resetWaker_sched]; exact htn,
      by rw [resetWaker_sched]; exact hix⟩, rfl⟩
  · rw [if_neg hidx]
    have hmq : c.sched.memQ id := by
      by_contra hnm
      exact hidx (hinv.det id hid hnm)
    have hne : t ≠ id := by
      intro he
      rw [he] at hix
      exact hidx hix
    have hnm : ¬ c.sched.memQ t := Sched.not_memQ_of_neg c.sched hinv.idx hix
    obtain ⟨hinvR, hnR, hmmR, hwhR, hpdR, hfrR, hdetR⟩ := Sched.sinv_remove hinv hmq
    refine ⟨⟨?_, ?_, ?_⟩, ?_⟩
    · rw [resetWaker_sched]
      exact hinvR
    · rw [resetWaker_sched]
      show t < (c.sched.remove id).nids
      rw [hnR]
      exact htn
    · rw [resetWaker_sched]
      show ((c.sched.remove id).store t).index = -1
      rw [hfrR t hnm]
      exact hix
    · rw [resetWaker_fired]

/-- `Timer.Reset` on a different allocated handle leaves a stopped record
stopped and fires nothing. -/
theorem timerReset_detached (c : ClockState) (id t : Nat) (d : Int)
    (hid : id < c.sched.nids) (hne : id ≠ t) (h : Detached c t) :
    Detached (c.timerReset id d).1 t ∧ (c.timerReset id d).1.fired = c.fired := by
  obtain ⟨hinv, htn, hix⟩ := h
  have hnm : ¬ c.sched.memQ t := Sched.not_memQ_of_neg c.sched hinv.idx hix
  have hsched : (c.timerReset id d).1.sched = (({ c.advanceRef c.refNow with sched := c.sched.setWhen id (c.nowLocal c.refNow + d) } : ClockState).reschedule id).sched := by
    unfold ClockState.timerReset
    rw [resetWaker_sched]
    rfl
  have hfired : (c.timerReset id d).1.fired = (({ c.advanceRef c.refNow with sched := c.sched.setWhen id (c.nowLocal c.refNow + d) } : ClockState).reschedule id).fired := by
    unfold ClockState.timerReset
    rw [resetWaker_fired]
    rfl
  have hfired2 : (({ c.advanceRef c.refNow with sched := c.sched.setWhen id (c.nowLocal c.refNow + d) } : ClockState).reschedule id).fired = c.fired := by
    unfold ClockState.reschedule
    split
    · rfl
    · rfl
  by_cases hidx : (c.sched.store id).index = -1
  · -- the reset record was detached: fresh insert
    have hnmid : ¬ c.sched.memQ id := Sched.not_memQ_of_neg c.sched hinv.idx hidx
    have hixw : ((c.sched.setWhen id (c.nowLocal c.refNow + d)).store id).index = -1 := by
      rw [Sched.setWhen_store_self]
      exact hidx
    have hre : ({ c.advanceRef c.refNow with sched := c.sched.setWhen id (c.nowLocal c.refNow + d) } : ClockState).reschedule id = ({ c.advanceRef c.refNow with sched := (c.sched.setWhen id (c.nowLocal c.refNow + d)).insert id } : ClockState) :=
      reschedule_eq_insert _ id hixw
    obtain ⟨hinvW, hnmW⟩ :=
      Sched.sinv_setWhen_detached (c.nowLocal c.refNow + d) hinv hnmid
    obtain ⟨hinvI, hnI, hmmI, hwhI, hpdI, hfrI⟩ :=
      Sched.sinv_insert hinvW hnmW (by simpa using hid)
    have hnmW' : ¬ (c.sched.setWhen id (c.nowLocal c.refNow + d)).memQ t := by
      rw [Sched.memQ_iff_of_same c.sched
        (c.sched.setWhen id (c.nowLocal c.refNow + d)) rfl rfl t]
      exact hnm
    refine ⟨⟨?_, ?_, ?_⟩, by rw [hfired, hfired2]⟩
    · rw [hsched, hre]
      exact hinvI
    · rw [hsched, hre]
      show t < ((c.sched.setWhen id (c.nowLocal c.refNow + d)).insert id).nids
      rw [hnI, Sched.setWhen_nids]
      exact htn
    · rw [hsched, hre]
      show (((c.sched.setWhen id (c.nowLocal c.refNow + d)).insert id).store t).index = -1
      rw [hfrI t hnmW' (fun he => hne he.symm),
        Sched.setWhen_store_ne c.sched id _ (fun he => hne he.symm)]
      exact hix
  · -- the reset record was queued: fix in place
    have hmq : c.sched.memQ id := by
      by_contra hnm2
      exact hidx (hinv.det id hid hnm2)
    have hixw : ((c.sched.setWhen id (c.nowLocal c.refNow + d)).store id).index ≠ -1 := by
      rw [Sched.setWhen_store_self]
      exact hidx
    have hre : ({ c.advanceRef c.refNow with sched := c.sched.setWhen id (c.nowLocal c.refNow + d) } : ClockState).reschedule id = ({ c.advanceRef c.refNow with sched := (c.sched.setWhen id (c.nowLocal c.refNow + d)).fix id } : ClockState) :=
      reschedule_eq_fix _ id hixw
    obtain ⟨hinvF, hnF, hmmF, hwhF, hwhtF, hpdF, hfrF⟩ :=
      Sched.sinv_rewhen (c.nowLocal c.refNow + d) hinv hmq
    refine ⟨⟨?_, ?_, ?_⟩, by rw [hfired, hfired2]⟩
    · rw [hsched, hre]
      exact hinvF
    · rw [hsched, hre]
      show t < ((c.sched.setWhen id (c.nowLocal c.refNow + d)).fix id).nids
      rw [hnF]
      exact htn
    · rw [hsched, hre]
      show (((c.sched.setWhen id (c.nowLocal c.refNow + d)).fix id).store t).index = -1
      rw [hfrF t hnm (fun he => hne he.symm)]
      exact hix

end ClockState

namespace ClockState

/-- `Ticker.Reset` on a different allocated handle leaves a stopped record
stopped and fires nothing. -/
theorem tickerResetCore_detached (c : ClockState) (id t : Nat) (d : Int)
    (hid : id < c.sched.nids) (hne : id ≠ t) (h : Detached c t) :
    Detached (c.tickerResetCore id d) t ∧
    (c.tickerResetCore id d).fired = c.fired := by
  obtain ⟨hinv, htn, hix⟩ := h
  have hnm : ¬ c.sched.memQ t := Sched.not_memQ_of_neg c.sched hinv.idx hix
  have hsched : (c.tickerResetCore id d).sched = (({ c.advanceRef c.refNow with sched := (c.sched.setWhen id (c.nowLocal c.refNow + d)).setPeriod id d } : ClockState).reschedule id).sched := by
    unfold ClockState.tickerResetCore
    rw [resetWaker_sched]
    rfl
  have hfired : (c.tickerResetCore id d).fired = (({ c.advanceRef c.refNow with sched := (c.sched.setWhen id (c.nowLocal c.refNow + d)).setPeriod id d } : ClockState).reschedule id).fired := by
    unfold ClockState.tickerResetCore
    rw [resetWaker_fired]
    rfl
  have hfired2 : (({ c.advanceRef c.refNow with sched := (c.sched.setWhen id (c.nowLocal c.refNow + d)).setPeriod id d } : ClockState).reschedule id).fired = c.fired := by
    unfold ClockState.reschedule
    split
    · rfl
    · rfl
  have hstne : ∀ x, x ≠ id →
      ((c.sched.setWhen id (c.nowLocal c.refNow + d)).setPeriod id d).store x =
        c.sched.store x := by
    intro x hx
    rw [Sched.setPeriod_store_ne _ id d hx, Sched.setWhen_store_ne c.sched id _ hx]
  have hstix : (((c.sched.setWhen id (c.nowLocal c.refNow + d)).setPeriod id d).store id).index = (c.sched.store id).index := by
    rw [Sched.setPeriod_store_self, Sched.setWhen_store_self]
  by_cases hidx : (c.sched.store id).index = -1
  · have hnmid : ¬ c.sched.memQ id := Sched.not_memQ_of_neg c.sched hinv.idx hidx
    have hixw : ((((c.sched.setWhen id (c.nowLocal c.refNow + d)).setPeriod id d)).store id).index = -1 := by
      rw [hstix]
      exact hidx
    have hre : ({ c.advanceRef c.refNow with sched := (c.sched.setWhen id (c.nowLocal c.refNow + d)).setPeriod id d } : ClockState).reschedule id = ({ c.advanceRef c.refNow with sched := ((c.sched.setWhen id (c.nowLocal c.refNow + d)).setPeriod id d).insert id } : ClockState) :=
      reschedule_eq_insert _ id hixw
    obtain ⟨hinvW, hnmW⟩ :=
      Sched.sinv_retimed_detached c.sched
        ((c.sched.setWhen id (c.nowLocal c.refNow + d)).setPeriod id d) id
        hinv hnmid rfl rfl rfl hstne hstix
    obtain ⟨hinvI, hnI, hmmI, hwhI, hpdI, hfrI⟩ :=
      Sched.sinv_insert hinvW hnmW (by simpa using hid)
    have hnmW' : ¬ ((c.sched.setWhen id (c.nowLocal c.refNow + d)).setPeriod id d).memQ t := by
      rw [Sched.memQ_iff_of_same c.sched
        ((c.sched.setWhen id (c.nowLocal c.refNow + d)).setPeriod id d) rfl rfl t]
      exact hnm
    refine ⟨⟨?_, ?_, ?_⟩, by rw [hfired, hfired2]⟩
    · rw [hsched, hre]
      exact hinvI
    · rw [hsched, hre]
      show t < (((c.sched.setWhen id (c.nowLocal c.refNow + d)).setPeriod id d).insert id).nids
      rw [hnI, Sched.setPeriod_nids, Sched.setWhen_nids]
      exact htn
    · rw [hsched, hre]
      show ((((c.sched.setWhen id (c.nowLocal c.refNow + d)).setPeriod id d).insert id).store t).index = -1
      rw [hfrI t hnmW' (fun he => hne he.symm), hstne t (fun he => hne he.symm)]
      exact hix
  · have hmq : c.sched.memQ id := by
      by_contra hnm2
      exact hidx (hinv.det id hid hnm2)
    have hixw : ((((c.sched.setWhen id (c.nowLocal c.refNow + d)).setPeriod id d)).store id).index ≠ -1 := by
      rw [hstix]
      exact hidx
    have hre : ({ c.advanceRef c.refNow with sched := (c.sched.setWhen id (c.nowLocal c.refNow + d)).setPeriod id d } : ClockState).reschedule id = ({ c.advanceRef c.refNow with sched := ((c.sched.setWhen id (c.nowLocal c.refNow + d)).setPeriod id d).fix id } : ClockState) :=
      reschedule_eq_fix _ id hixw
    obtain ⟨hinvF, hnF, hmmF, hfrF⟩ :=
      Sched.sinv_fix_retimed c.sched
        ((c.sched.setWhen id (c.nowLocal c.refNow + d)).setPeriod id d) id
        hinv hmq rfl rfl rfl hstne hstix
    refine ⟨⟨?_, ?_, ?_⟩, by rw [hfired, hfired2]⟩
    · rw [hsched, hre]
      exact hinvF
    · rw [hsched, hre]
      show t < (((c.sched.setWhen id (c.nowLocal c.refNow + d)).setPeriod id d).fix id).nids
      rw [hnF]
      exact htn
    · rw [hsched, hre]
      show ((((c.sched.setWhen id (c.nowLocal c.refNow + d)).setPeriod id d).fix id).store t).index = -1
      rw [hfrF t hnm (fun he => hne he.symm)]
      exact hix

end ClockState

/-- The public mutating operations of the single-queue relativetime clock
(src/relativetime/clock.go), as invoked through valid handles.  A Go
handle can only name an allocated record, so the per-id operations carry
the guard `id < nids`; `NewTicker`/`Ticker.Reset` panic on `d.Seconds() <= 0`
before touching any state, so the panicking call leaves the state
unchanged. -/
inductive Op where
  | opSet : Int → Op
  | opStep : Int → Op
  | opStart : Op
  | opStop : Op
  | opSetScale : ℚ → Op
  | opNow : Op
  | opNewTimer : Int → Op
  | opNewTicker : Int → Op
  | opAfterFunc : Int → Op
  | opSleep : Int → Op
  | opTimerStop : Nat → Op
  | opTimerReset : Nat → Int → Op
  | opTickerStop : Nat → Op
  | opTickerReset : Nat → Int → Op
  | opWake : Int → Op

/-- The operations that re-arm record `t`: `Timer.Reset`/`Ticker.Reset` on
`t`'s own handle. -/
def rearms (t : Nat) : Op → Prop
  | .opTimerReset id _ => id = t
  | .opTickerReset id _ => id = t
  | _ => False

instance rearmsDec (t : Nat) : (op : Op) → Decidable (rearms t op)
  | .opSet _ => inferInstanceAs (Decidable False)
  | .opStep _ => inferInstanceAs (Decidable False)
  | .opStart => inferInstanceAs (Decidable False)
  | .opStop => inferInstanceAs (Decidable False)
  | .opSetScale _ => inferInstanceAs (Decidable False)
  | .opNow => inferInstanceAs (Decidable False)
  | .opNewTimer _ => inferInstanceAs (Decidable False)
  | .opNewTicker _ => inferInstanceAs (Decidable False)
  | .opAfterFunc _ => inferInstanceAs (Decidable False)
  | .opSleep _ => inferInstanceAs (Decidable False)
  | .opTimerStop _ => inferInstanceAs (Decidable False)
  | .opTimerReset id _ => inferInstanceAs (Decidable (id = t))
  | .opTickerStop _ => inferInstanceAs (Decidable False)
  | .opTickerReset id _ => inferInstanceAs (Decidable (id = t))
  | .opWake _ => inferInstanceAs (Decidable False)

namespace ClockState

/-- One public operation (see `Op`). -/
def exec (c : ClockState) : Op → ClockState
  | .opSet t => c.setTime t
  | .opStep d => c.step d
  | .opStart => c.start
  | .opStop => c.stop
  | .opSetScale s => c.setScale s
  | .opNow => (c.nowOp).1
  | .opNewTimer d => (c.newTimer d).1
  | .opNewTicker d => if durSeconds d ≤ 0 then c else (c.newTickerCore d).1
  | .opAfterFunc d => (c.afterFunc d).1
  | .opSleep d => c.sleepSched d
  | .opTimerStop id => if id < c.sched.nids then (c.timerStop id).1 else c
  | .opTimerReset id d =>
      if id < c.sched.nids then (c.timerReset id d).1 else c
  | .opTickerStop id =>
      if id < c.sched.nids then (c.unschedule id).resetWaker false else c
  | .opTickerReset id d =>
      if durSeconds d ≤ 0 then c
      else if id < c.sched.nids then c.tickerResetCore id d else c
  | .opWake r => c.wake r

/-- A sequence of public operations. -/
def execList (c : ClockState) : List Op → ClockState
  | [] => c
  | op :: ops => (c.exec op).execList ops

/-- No public operation other than a `Reset` on `t`'s own handle fires a
stopped record `t` or re-arms it. -/
theorem exec_detached (c : ClockState) (t : Nat) (op : Op)
    (h : Detached c t) (hop : ¬ rearms t op) :
    Detached (c.exec op) t ∧
    firesOf t (c.exec op).fired = firesOf t c.fired := by
  cases op with
  | opSet t0 =>
    have h' : Detached ({ c with now := t0, rNow := c.refNow } : ClockState) t :=
      detached_congr rfl h
    have hc := checkSchedule_detached _ t h'
    exact ⟨hc.1, hc.2⟩
  | opStep d =>
    have h' : Detached ({ c.advanceRef c.refNow with now := (c.advanceRef c.refNow).now + d } : ClockState) t :=
      detached_congr rfl h
    have hc := checkSchedule_detached _ t h'
    exact ⟨hc.1, hc.2⟩
  | opStart =>
    refine ⟨detached_congr ?_ h, congrArg (firesOf t) ?_⟩
    · show (c.start).sched = c.sched
      unfold ClockState.start
      rw [resetWaker_sched]
      rfl
    · show (c.start).fired = c.fired
      unfold ClockState.start
      rw [resetWaker_fired]
      rfl
  | opStop =>
    refine ⟨detached_congr ?_ h, congrArg (firesOf t) ?_⟩
    · show (c.stop).sched = c.sched
      unfold ClockState.stop
      rw [resetWaker_sched]
      rfl
    · show (c.stop).fired = c.fired
      unfold ClockState.stop
      rw [resetWaker_fired]
      rfl
  | opSetScale s =>
    refine ⟨detached_congr ?_ h, congrArg (firesOf t) ?_⟩
    · show (c.setScale s).sched = c.sched
      unfold ClockState.setScale
      rw [resetWaker_sched]
      rfl
    · show (c.setScale s).fired = c.fired
      unfold ClockState.setScale
      rw [resetWaker_fired]
      rfl
  | opNow => exact ⟨detached_congr rfl h, rfl⟩
  | opNewTimer d =>
    have h1 : Detached (c.advanceRef c.refNow) t := detached_congr rfl h
    have ha := alloc_insert_reset_detached (c.advanceRef c.refNow)
      ((c.advanceRef c.refNow).now + d) 0 t h1
    exact ⟨ha.1, congrArg (firesOf t) ha.2⟩
  | opNewTicker d =>
    by_cases hd : durSeconds d ≤ 0
    · have he : c.exec (Op.opNewTicker d) = c := if_pos hd
      rw [he]
      exact ⟨h, rfl⟩
    · have he : c.exec (Op.opNewTicker d) = (c.newTickerCore d).1 := if_neg hd
      rw [he]
      have h1 : Detached (c.advanceRef c.refNow) t := detached_congr rfl h
      have ha := alloc_insert_reset_detached (c.advanceRef c.refNow)
        ((c.advanceRef c.refNow).now + d) d t h1
      exact ⟨ha.1, congrArg (firesOf t) ha.2⟩
  | opAfterFunc d =>
    have h1 : Detached (c.advanceRef c.refNow) t := detached_congr rfl h
    have ha := alloc_insert_reset_detached (c.advanceRef c.refNow)
      ((c.advanceRef c.refNow).now + d) 0 t h1
    exact ⟨ha.1, congrArg (firesOf t) ha.2⟩
  | opSleep d =>
    by_cases hd : durSeconds d ≤ 0
    · have he : c.exec (Op.opSleep d) = c := by
        show c.sleepSched d = c
        unfold ClockState.sleepSched
        rw [if_pos hd]
      rw [he]
      exact ⟨h, rfl⟩
    · have he : c.exec (Op.opSleep d) = (({ ((c.advanceRef c.refNow).alloc ((c.advanceRef c.refNow).now + d) 0).1 with sched := ((c.advanceRef c.refNow).alloc ((c.advanceRef c.refNow).now + d) 0).1.sched.insert ((c.advanceRef c.refNow).alloc ((c.advanceRef c.refNow).now + d) 0).2 } : ClockState).resetWaker false) := by
        show c.sleepSched d = _
        unfold ClockState.sleepSched
        rw [if_neg hd]
      rw [he]
      have h1 : Detached (c.advanceRef c.refNow) t := detached_congr rfl h
      have ha := alloc_insert_reset_detached (c.advanceRef c.refNow)
        ((c.advanceRef c.refNow).now + d) 0 t h1
      exact ⟨ha.1, congrArg (firesOf t) ha.2⟩
  | opTimerStop id =>
    by_cases hid : id < c.sched.nids
    · have he : c.exec (Op.opTimerStop id) = (c.timerStop id).1 := if_pos hid
      rw [he]
      have ha := unschedule_reset_detached c id t hid h
      exact ⟨ha.1, congrArg (firesOf t) ha.2⟩
    · have he : c.exec (Op.opTimerStop id) = c := if_neg hid
      rw [he]
      exact ⟨h, rfl⟩
  | opTimerReset id d =>
    have hne : id ≠ t := hop
    by_cases hid : id < c.sched.nids
    · have he : c.exec (Op.opTimerReset id d) = (c.timerReset id d).1 :=
        if_pos hid
      rw [he]
      have ha := timerReset_detached c id t d hid hne h
      exact ⟨ha.1, congrArg (firesOf t) ha.2⟩
    · have he : c.exec (Op.opTimerReset id d) = c := if_neg hid
      rw [he]
      exact ⟨h, rfl⟩
  | opTickerStop id =>
    by_cases hid : id < c.sched.nids
    · have he : c.exec (Op.opTickerStop id) =
          (c.unschedule id).resetWaker false := if_pos hid
      rw [he]
      have ha := unschedule_reset_detached c id t hid h
      exact ⟨ha.1, congrArg (firesOf t) ha.2⟩
    · have he : c.exec (Op.opTickerStop id) = c := if_neg hid
      rw [he]
      exact ⟨h, rfl⟩
  | opTickerReset id d =>
    have hne : id ≠ t := hop
    by_cases hd : durSeconds d ≤ 0
    · have he : c.exec (Op.opTickerReset id d) = c := if_pos hd
      rw [he]
      exact ⟨h, rfl⟩
    · by_cases hid : id < c.sched.nids
      · have he : c.exec (Op.opTickerReset id d) = c.tickerResetCore id d := by
          show (if durSeconds d ≤ 0 then c else if id < c.sched.nids then c.tickerResetCore id d else c) = _
          rw [if_neg hd, if_pos hid]
        rw [he]
        have ha := tickerResetCore_detached c id t d hid hne h
        exact ⟨ha.1, congrArg (firesOf t) ha.2⟩
      · have he : c.exec (Op.opTickerReset id d) = c := by
          show (if durSeconds d ≤ 0 then c else if id < c.sched.nids then c.tickerResetCore id d else c) = _
          rw [if_neg hd, if_neg hid]
        rw [he]
        exact ⟨h, rfl⟩
  | opWake r =>
    by_cases hr : c.rNow < r
    · have he : c.exec (Op.opWake r) = (c.advanceRef r).checkSchedule := by
        show c.wake r = _
        unfold ClockState.wake
        rw [if_pos hr]
      rw [he]
      have hc := checkSchedule_detached (c.advanceRef r) t (detached_congr rfl h)
      exact ⟨hc.1, hc.2⟩
    · have he : c.exec (Op.opWake r) = c.checkSchedule := by
        show c.wake r = _
        unfold ClockState.wake
        rw [if_neg hr]
      rw [he]
      exact checkSchedule_detached c t h

/-- Iterating `exec_detached` over an operation sequence. -/
theorem execList_detached (c : ClockState) (t : Nat) (ops : List Op)
    (h : Detached c t) (hops : ∀ op ∈ ops, ¬ rearms t op) :
    Detached (c.execList ops) t ∧
    firesOf t (c.execList ops).fired = firesOf t c.fired := by
  induction ops generalizing c with
  | nil => exact ⟨h, rfl⟩
  | cons op ops ih =>
    have h1 := exec_detached c t op h (hops op (List.mem_cons_self op ops))
    have h2 := ih (c.exec op) h1.1
      (fun o ho => hops o (List.mem_cons_of_mem op ho))
    exact ⟨h2.1, h2.2.trans h1.2⟩

/-- `Timer.Stop` detaches the record; the statement notes whether the
queue itself was touched. -/
theorem timerStop_detaches (c : ClockState) (t : Nat)
    (hinv : Sched.SInv c.sched) (htn : t < c.sched.nids) :
    Detached (c.timerStop t).1 t ∧ ¬ (c.timerStop t).1.sched.memQ t ∧
    (c.timerStop t).1.fired = c.fired ∧
    ((c.sched.store t).index = -1 → (c.timerStop t).1.sched = c.sched) := by
  have hsched : (c.timerStop t).1.sched = (c.unschedule t).sched := by
    show ((c.unschedule t).resetWaker false).sched = _
    rw [resetWaker_sched]
  have hfired : (c.timerStop t).1.fired = (c.unschedule t).fired := by
    show ((c.unschedule t).resetWaker false).fired = _
    rw [resetWaker_fired]
  by_cases hix : (c.sched.store t).index = -1
  · have hu : c.unschedule t = c := by
      unfold ClockState.unschedule
      rw [if_pos hix]
    have hs2 : (c.timerStop t).1.sched = c.sched := by rw [hsched, hu]
    have hf2 : (c.timerStop t).1.fired = c.fired := by rw [hfired, hu]
    refine ⟨⟨?_, ?_, ?_⟩, ?_, hf2, fun _ => hs2⟩
    · rw [hs2]
      exact hinv
    · rw [hs2]
      exact htn
    · rw [hs2]
      exact hix
    · rw [hs2]
      exact Sched.not_memQ_of_neg c.sched hinv.idx hix
  · have hmq : c.sched.memQ t := by
      by_contra hnm
      exact hix (hinv.det t htn hnm)
    have hu : c.unschedule t = { c with sched := c.sched.remove t } := by
      unfold ClockState.unschedule
      rw [if_neg hix]
    obtain ⟨hinvR, hnR, hmmR, hwhR, hpdR, hfrR, hdetR⟩ :=
      Sched.sinv_remove hinv hmq
    have hs2 : (c.timerStop t).1.sched = c.sched.remove t := by
      rw [hsched, hu]
    have hnm2 : ¬ (c.sched.remove t).memQ t := by
      rw [hmmR t]
      rintro ⟨_, hne⟩
      exact hne rfl
    refine ⟨⟨?_, ?_, ?_⟩, ?_, ?_, fun hc => absurd hc hix⟩
    · rw [hs2]
      exact hinvR
    · rw [hs2, hnR]
      exact htn
    · rw [hs2]
      exact hdetR
    · rw [hs2]
      exact hnm2
    · rw [hfired, hu]

end ClockState

/-- C6: `Timer.Stop` reports `true` exactly when the record was still in
the queue (`index ≠ -1`) at the call; afterwards the record is detached
and out of the queue (stopping an already-detached record leaves the
queue untouched); and no sequence of subsequent public operations that
does not `Reset` this handle ever fires it again — its slice of the
invocation log stays exactly what it was when `Stop` was called. -/
theorem c6_timer_stop (c : ClockState) (t : Nat)
    (hinv : Sched.SInv c.sched) (htn : t < c.sched.nids) :
    ((c.timerStop t).2 = true ↔ (c.sched.store t).index ≠ -1) ∧
    ((c.timerStop t).1.sched.store t).index = -1 ∧
    ¬ (c.timerStop t).1.sched.memQ t ∧
    ((c.sched.store t).index = -1 → (c.timerStop t).1.sched = c.sched) ∧
    (∀ ops : List Op, (∀ op ∈ ops, ¬ rearms t op) →
      firesOf t ((c.timerStop t).1.execList ops).fired = firesOf t c.fired) := by
  have hb : (c.timerStop t).2 = decide ((c.sched.store t).index ≠ -1) := rfl
  obtain ⟨hdet, hnm, hfired, hnoop⟩ := ClockState.timerStop_detaches c t hinv htn
  refine ⟨by rw [hb]; exact decide_eq_true_iff, hdet.2.2, hnm, hnoop, ?_⟩
  intro ops hops
  have hl := ClockState.execList_detached (c.timerStop t).1 t ops hdet hops
  rw [hl.2, hfired]

/-- C6 witness: `c6_timer_stop` at a concrete one-ticker clock, followed
by a step and a fresh timer, neither of which revives the stopped
record. -/
theorem c6_timer_stop_witness :
    (((((newClock 0 1 0).start).newTickerCore 50).1.timerStop 0).2 = true ↔
      (((((newClock 0 1 0).start).newTickerCore 50).1).sched.store 0).index ≠ -1) ∧
    firesOf 0 (((((newClock 0 1 0).start).newTickerCore 50).1.timerStop 0).1.execList [Op.opStep 100, Op.opNewTimer 30]).fired =
      firesOf 0 ((((newClock 0 1 0).start).newTickerCore 50).1).fired :=
  ⟨(c6_timer_stop (((newClock 0 1 0).start).newTickerCore 50).1 0
      (by decide) (by decide)).1,
   (c6_timer_stop (((newClock 0 1 0).start).newTickerCore 50).1 0
      (by decide) (by decide)).2.2.2.2 [Op.opStep 100, Op.opNewTimer 30]
      (by decide)⟩
